import Mathlib

/-!
Verification development for the todo_finder repository.

Strings are modelled as lists of characters; every parser is a function
from the remaining input to a result that is either success (with the
rest of the input and a value), an ordinary parse error, or a panic
(modelling a Rust `expect` failure).  The definitions mirror the Rust
sources in `todo_finder_lib` (parser.rs, parser/source.rs,
parser/issue.rs, parser/langs.rs, finder/parse.rs).
-/

namespace TodoFinder

/-- Sentence terminator characters, from `sentence_and_terminator`. -/
def isTerm (c : Char) : Bool :=
  c = '.' || c = '?' || c = '!'

/-- The whitespace predicate used by Rust string trimming
(`char::is_whitespace`, the Unicode White_Space property). -/
def isRustWs (c : Char) : Bool :=
  c.toNat ∈ [0x09, 0x0A, 0x0B, 0x0C, 0x0D, 0x20, 0x85, 0xA0, 0x1680,
    0x2000, 0x2001, 0x2002, 0x2003, 0x2004, 0x2005, 0x2006, 0x2007,
    0x2008, 0x2009, 0x200A, 0x2028, 0x2029, 0x202F, 0x205F, 0x3000]

/-- Rust `str::trim_start`. -/
def rustTrimStart (s : List Char) : List Char :=
  s.dropWhile isRustWs

/-- Rust `str::trim_end`. -/
def rustTrimEnd (s : List Char) : List Char :=
  (s.reverse.dropWhile isRustWs).reverse

/-- Rust `str::trim`. -/
def rustTrim (s : List Char) : List Char :=
  rustTrimEnd (rustTrimStart s)

/-- Rust `str::trim_start_matches` with a string pattern: repeatedly
remove the pattern from the front.  The fuel argument bounds the number
of removals; the callers pass the length of the string plus one, which
is always sufficient because every removal of a non-empty pattern
shortens the string. -/
def trimStartMatchesF : Nat → List Char → List Char → List Char
  | 0, _, s => s
  | f + 1, pat, s =>
    if pat.isEmpty then s
    else if pat.isPrefixOf s then trimStartMatchesF f pat (s.drop pat.length)
    else s

/-- Rust `str::trim_start_matches` with a string pattern. -/
def trimStartMatchesL (pat s : List Char) : List Char :=
  trimStartMatchesF (s.length + 1) pat s

/-- Rust `str::trim_end_matches` with a string pattern: repeatedly
remove the pattern from the back. -/
def trimEndMatchesL (pat s : List Char) : List Char :=
  (trimStartMatchesF (s.length + 1) pat.reverse s.reverse).reverse

/-- Rust `str::trim_matches` with a `char` pattern: remove every
leading and trailing occurrence of the character. -/
def trimMatchesChar (c : Char) (s : List Char) : List Char :=
  ((s.dropWhile (fun x => x = c)).reverse.dropWhile (fun x => x = c)).reverse

/-- Numeric value of a decimal digit list (the semantics of
`str::parse::<usize>` on a digit run, before the overflow check). -/
def natOfDigits (ds : List Char) : Nat :=
  ds.foldl (fun n c => n * 10 + (c.toNat - 48)) 0

/-- One decimal digit as a character. -/
def digitChar (n : Nat) : Char :=
  Char.ofNat (48 + n)

/-- Decimal digits of a natural number, fuelled; fuel `n + 1` always
suffices since the number shrinks by a factor of ten each step. -/
def natDigitsF : Nat → Nat → List Char
  | 0, _ => []
  | f + 1, n =>
    if n < 10 then [digitChar n]
    else natDigitsF f (n / 10) ++ [digitChar (n % 10)]

/-- Decimal representation of a natural number (Rust `format!`). -/
def natDigits (n : Nat) : List Char :=
  natDigitsF (n + 1) n

/-- One more than the largest value of a 64-bit `usize`;
`str::parse::<usize>` fails exactly on values at or above this. -/
def usizeTop : Nat := 2 ^ 64

/-- Rust `str::parse::<usize>` on a run of decimal digits: `none`
models the overflow error. -/
def parseUsize (ds : List Char) : Option Nat :=
  let n := natOfDigits ds
  if n < usizeTop then some n else none

/-- Result of one nom-style step: success with the rest of the input,
an ordinary error, or a panic (a Rust `expect` failure). -/
inductive PRes (α : Type) where
  | ok (rest : List Char) (val : α)
  | err
  | panic
deriving DecidableEq, Repr

/-- A nom-style combinator: input to result. -/
def Pc (α : Type) : Type := List Char → PRes α

/-- Success that consumes nothing. -/
def pcPure {α : Type} (a : α) : Pc α := fun i => .ok i a

/-- Sequencing of combinators: errors and panics pass through. -/
def pcBind {α β : Type} (p : Pc α) (f : α → Pc β) : Pc β := fun i =>
  match p i with
  | .ok j a => f a j
  | .err => .err
  | .panic => .panic

instance : Monad Pc where
  pure := pcPure
  bind := pcBind

/-- nom `bytes::complete::tag`. -/
def pTag (t : List Char) : Pc (List Char) := fun i =>
  if t.isPrefixOf i then .ok (i.drop t.length) t else .err

/-- nom `character::complete::char`. -/
def pChar (c : Char) : Pc Char := fun i =>
  match i with
  | c0 :: rest => if c0 = c then .ok rest c else .err
  | [] => .err

/-- nom `character::complete::space0` (spaces and tabs). -/
def pSpace0 : Pc (List Char) := fun i =>
  .ok (i.dropWhile (fun c => c = ' ' || c = '\t'))
    (i.takeWhile (fun c => c = ' ' || c = '\t'))

/-- nom `bytes::complete::take_till`. -/
def pTakeTill (f : Char → Bool) : Pc (List Char) := fun i =>
  .ok (i.dropWhile (fun c => !(f c))) (i.takeWhile (fun c => !(f c)))

/-- nom `bytes::complete::take_while`. -/
def pTakeWhile (f : Char → Bool) : Pc (List Char) := fun i =>
  .ok (i.dropWhile f) (i.takeWhile f)

/-- nom `bytes::complete::take_while1` / `is_not`. -/
def pTakeWhile1 (f : Char → Bool) : Pc (List Char) := fun i =>
  if (i.takeWhile f).isEmpty then .err
  else .ok (i.dropWhile f) (i.takeWhile f)

/-- nom `character::complete::digit1`. -/
def pDigit1 : Pc (List Char) :=
  pTakeWhile1 Char.isDigit

/-- nom `character::complete::line_ending`. -/
def pLineEnding : Pc (List Char) := fun i =>
  match i with
  | '\r' :: '\n' :: rest => .ok rest ['\r', '\n']
  | '\n' :: rest => .ok rest ['\n']
  | _ => .err

/-- nom `combinator::opt`. -/
def pOpt {α : Type} (p : Pc α) : Pc (Option α) := fun i =>
  match p i with
  | .ok j a => .ok j (some a)
  | .err => .ok i none
  | .panic => .panic

/-- nom `combinator::not`. -/
def pNot {α : Type} (p : Pc α) : Pc Unit := fun i =>
  match p i with
  | .ok _ _ => .err
  | .err => .ok i ()
  | .panic => .panic

/-- Try a list of alternatives in order, as nom `branch::alt` and the
try-each-in-order loops of `parse_todo` do. -/
def pAltL {α : Type} : List (Pc α) → Pc α
  | [] => fun _ => .err
  | p :: rest => fun i =>
    match p i with
    | .ok j a => .ok j a
    | .err => pAltL rest i
    | .panic => .panic

/-- First index (if any) at which the pattern occurs as a prefix of a
suffix of the input; used to model nom `bytes::complete::take_until`. -/
def findSub (pat : List Char) : List Char → Option Nat
  | [] => if pat.isEmpty then some 0 else none
  | c :: rest =>
    if pat.isPrefixOf (c :: rest) then some 0
    else (findSub pat rest).map (fun n => n + 1)

/-- nom `bytes::complete::take_until`. -/
def pTakeUntil (pat : List Char) : Pc (List Char) := fun i =>
  match findSub pat i with
  | some k => .ok (i.drop k) (i.take k)
  | none => .err

/-! ## parser/source.rs -/

/-- The start of a TODO (`TodoTag` in source.rs). -/
inductive TodoTag where
  | standard (name : List Char)
  | rustMacro
deriving DecidableEq, Repr

/-- A fully extracted todo (`ParsedTodo` in source.rs). -/
structure ParsedTodo where
  title : List Char
  assignee : Option (List Char)
  desc_lines : List (List Char)
deriving DecidableEq, Repr

/-- The border-eating loop of `comment_start`: at most one border is
consumed, the first one that matches. -/
def eatOneBorder : List (List Char) → List Char → List Char
  | [], i => i
  | b :: bs, i =>
    if b.isPrefixOf i then i.drop b.length else eatOneBorder bs i

/-- `comment_start` from source.rs: optional whitespace, the comment
opener, optional whitespace, at most one border, optional whitespace. -/
def comment_start (borders : List (List Char)) (pfx : List Char) : Pc Unit := do
  let _ ← pSpace0
  let _ ← pTag pfx
  let _ ← pSpace0
  let _ ← fun i => PRes.ok (eatOneBorder borders i) ()
  let _ ← pSpace0
  pure ()

/-- `assignee` from source.rs: a parenthesized name. -/
def assigneeEater : Pc (List Char) := do
  let _ ← pChar '('
  let _ ← pSpace0
  let name ← pTakeWhile
    (fun c => !(c = '\r' || c = '\n' || c = ' ' || c = ')'))
  let _ ← pChar ')'
  pure name

/-- `todo_tag` from source.rs: one of the four tag patterns, and for a
standard tag an optional assignee followed by an optional colon. -/
def todo_tag : Pc (Option TodoTag) := do
  let _ ← pSpace0
  let t ← pAltL [pTag "TODO".toList, pTag "FIXME".toList,
    pTag "@todo".toList, pTag "todo!".toList]
  if t = "todo!".toList then
    pure (some .rustMacro)
  else do
    let _ ← pSpace0
    let mayName ← pOpt assigneeEater
    let _ ← pSpace0
    let _ ← pOpt (pChar ':')
    let _ ← pSpace0
    pure (mayName.map .standard)

/-- The scanning loop of `sentence_and_terminator`, fuelled.  Each
iteration eats a run of non-terminators and then a run of terminators,
breaking when the run is followed by a space or the end of the input;
the returned number is the accumulated byte count `n` of the Rust code.
Fuel `length + 1` always suffices because every non-breaking iteration
consumes at least one character. -/
def satGoF : Nat → List Char → Nat → Nat
  | 0, ii, n => n + ii.length
  | f + 1, ii, n =>
    let sent := ii.takeWhile (fun c => !(isTerm c))
    let r1 := ii.dropWhile (fun c => !(isTerm c))
    let terms := r1.takeWhile isTerm
    let r2 := r1.dropWhile isTerm
    let n2 := n + sent.length + terms.length
    match r2 with
    | [] => n2
    | c :: cs => if c = ' ' then n2 else satGoF f (c :: cs) n2

/-- `sentence_and_terminator` from source.rs.  Returns the pair of the
remaining input (with leading whitespace trimmed) and the consumed
sentence, mirroring the `IResult` pair of the source. -/
def sentence_and_terminator (i : List Char) : List Char × List Char :=
  let n := satGoF (i.length + 1) i 0
  (rustTrimStart (i.drop n), i.take n)

/-- `trim_borders` from source.rs. -/
def trim_borders (borders : List (List Char)) (i : List Char) : List Char :=
  let i := rustTrim i
  let i := borders.foldl (fun i b => rustTrim (trimStartMatchesL b i)) i
  borders.foldl (fun i b => rustTrim (trimEndMatchesL b i)) i

/-- `take_to_eol` from parser.rs as a total function returning the line
and the rest: everything up to a line end, with the line ending itself
consumed when present. -/
def takeToEolT (i : List Char) : List Char × List Char :=
  let ln := i.takeWhile (fun c => !(c = '\r' || c = '\n'))
  let r := i.dropWhile (fun c => !(c = '\r' || c = '\n'))
  let r2 :=
    match r with
    | '\r' :: '\n' :: rest => rest
    | '\n' :: rest => rest
    | _ => r
  (ln, r2)

/-- `take_to_eol` from parser.rs. -/
def take_to_eol : Pc (List Char) := fun i =>
  let (ln, r) := takeToEolT i
  .ok r ln

/-- `title_and_rest_till_eol` from source.rs as a total function:
the remaining input and the pair of title and border-trimmed rest of
the first line. -/
def titleAndRestT (borders : List (List Char)) (i : List Char) :
    List Char × (List Char × List Char) :=
  let (ln, rest) := takeToEolT i
  let (desc, title) := sentence_and_terminator ln
  (rest, (title, trim_borders borders desc))

/-- `title_and_rest_till_eol` from source.rs. -/
def title_and_rest_till_eol (borders : List (List Char)) :
    Pc (List Char × List Char) := fun i =>
  let (rest, v) := titleAndRestT borders i
  .ok rest v

/-- `single_line_comment` from source.rs: a comment start, a negative
lookahead for a todo tag, then the rest of the line. -/
def single_line_comment (borders : List (List Char)) (pfx : List Char) :
    Pc (List Char) := do
  let _ ← comment_start borders pfx
  let _ ← pNot todo_tag
  take_to_eol

/-- nom `multi::many0`, fuelled.  As in nom, an inner success that
consumes nothing is an error.  Fuel `length + 1` always suffices for
the inner combinators used here, which consume at least one character
on success. -/
def many0F {α : Type} : Nat → Pc α → Pc (List α)
  | 0, _ => fun _ => .err
  | f + 1, p => fun i =>
    match p i with
    | .err => .ok i []
    | .panic => .panic
    | .ok j a =>
      if j.length = i.length then .err
      else
        match many0F f p j with
        | .ok k as => .ok k (a :: as)
        | .err => .err
        | .panic => .panic

/-- The fragment clean-up of `rust_todo_content`:
`.trim().trim_end_matches("\\").trim()`. -/
def trimFragBs (s : List Char) : List Char :=
  rustTrim (trimEndMatchesL ['\\'] (rustTrim s))

/-- The line loop at the end of `rust_todo_content`, fuelled: while the
rest is non-empty, take a line and keep its cleaned text when the raw
line is non-empty.  Fuel `length + 1` always suffices for inputs
without a lone carriage return. -/
def rtcLoop : Nat → List Char → List (List Char)
  | 0, _ => []
  | f + 1, rest =>
    if rest.isEmpty then []
    else
      let (ln, next) := takeToEolT rest
      (if ln.isEmpty then [] else [trimFragBs ln]) ++ rtcLoop f next

/-- `rust_todo_content` from source.rs: the body of a `todo!(...)`
macro call.  Takes everything between the first opening parenthesis
and the first closing parenthesis, trims whitespace and all
surrounding quote characters, and splits the content into a title and
description lines. -/
def rust_todo_content : Pc ParsedTodo := do
  let _ ← pChar '('
  let raw ← pTakeWhile1 (fun c => !(c = ')'))
  let _ ← pChar ')'
  let content := trimMatchesChar '"' (rustTrim raw)
  let tr := titleAndRestT [] content
  let ds0 := if tr.2.2.isEmpty then [] else [trimFragBs tr.2.2]
  pure { title := trimFragBs tr.2.1, assignee := none,
         desc_lines := ds0 ++ rtcLoop (tr.1.length + 1) tr.1 }

/-- Rust `str::lines`: split at newlines, dropping one carriage return
before each consumed newline; a final empty segment is not produced. -/
def linesGo : List Char → List Char → List (List Char)
  | [], cur => if cur.isEmpty then [] else [cur]
  | '\n' :: rest, cur =>
    (if cur.getLast? = some '\r' then cur.dropLast else cur) :: linesGo rest []
  | c :: rest, cur => linesGo rest (cur ++ [c])

/-- Rust `str::lines`. -/
def rustLines (s : List Char) : List (List Char) :=
  linesGo s []

/-- `single_line_todo` from source.rs. -/
def single_line_todo (borders : List (List Char)) (pfx : List Char) :
    Pc ParsedTodo := do
  let _ ← comment_start borders pfx
  let mayName ← todo_tag
  match mayName with
  | some .rustMacro => rust_todo_content
  | _ => do
    let nm :=
      match mayName with
      | some (.standard name) => if name.isEmpty then none else some name
      | _ => none
    let tv ← title_and_rest_till_eol borders
    let descN ← fun i => many0F (i.length + 1) (single_line_comment borders pfx) i
    let ds := (tv.2 :: descN).filter (fun d => !(d.isEmpty))
    pure { title := tv.1, assignee := nm, desc_lines := ds }

/-- `multi_line_todo` from source.rs. -/
def multi_line_todo (borders : List (List Char)) (pfx sfx : List Char) :
    Pc ParsedTodo := do
  let _ ← pSpace0
  let _ ← pOpt (comment_start borders pfx)
  let mayName ← todo_tag
  match mayName with
  | some .rustMacro => rust_todo_content
  | _ => do
    let nm :=
      match mayName with
      | some (.standard name) => some name
      | _ => none
    let tv ← title_and_rest_till_eol borders
    if tv.2 = sfx then
      pure { title := tv.1, assignee := nm, desc_lines := [] }
    else do
      let comment ← pTakeUntil sfx
      let _ ← pTag sfx
      let descN := tv.2 :: (rustLines comment).map (trim_borders borders)
      pure { title := tv.1, assignee := nm,
             desc_lines := descN.filter (fun d => !(d.isEmpty)) }

/-- `TodoParserConfig` from source.rs. -/
structure TodoParserConfig where
  singles : List (List Char)
  multis : List (List Char × List Char)
  borders : List (List Char)
deriving DecidableEq, Repr

/-- `parse_todo` from source.rs: every multi-line pair in order, then
every single-line opener in order, first success wins. -/
def parse_todo (cfg : TodoParserConfig) : Pc ParsedTodo :=
  pAltL
    ((cfg.multis.map (fun ps => multi_line_todo cfg.borders ps.1 ps.2)) ++
     (cfg.singles.map (fun p => single_line_todo cfg.borders p)))

/-! ## parser/langs.rs -/

/-- `CommentStyle` from langs.rs. -/
inductive CommentStyle where
  | single (s : List Char)
  | multi (p s : List Char)
  | border (b : List Char)
deriving DecidableEq, Repr

/-- `TodoParserConfig::add_comment_style`. -/
def addCommentStyle (cfg : TodoParserConfig) : CommentStyle → TodoParserConfig
  | .single s => { cfg with singles := cfg.singles ++ [s] }
  | .multi p s => { cfg with multis := cfg.multis ++ [(p, s)] }
  | .border b => { cfg with borders := cfg.borders ++ [b] }

/-- `TodoParserConfig::from_comment_styles`. -/
def fromCommentStyles (styles : List CommentStyle) : TodoParserConfig :=
  styles.foldl addCommentStyle { singles := [], multis := [], borders := [] }

/-- `c_style` from langs.rs. -/
def c_style : List CommentStyle :=
  [.single "//".toList, .single "///".toList,
   .multi "/*".toList "*/".toList, .border "*".toList]

/-- `rust_style` from langs.rs. -/
def rust_style : List CommentStyle := c_style

/-- `objc_style` from langs.rs. -/
def objc_style : List CommentStyle := c_style ++ [.border "!".toList]

/-- `haskell_style` from langs.rs. -/
def haskell_style : List CommentStyle :=
  [.single "--".toList, .multi "\x7b-".toList "-\x7d".toList,
   .border "|".toList]

/-! ## parser/issue.rs -/

/-- `GitHubTodoLocation` from issue.rs. -/
structure GitHubTodoLocation where
  repo : List Char × List Char
  checkout : List Char
  file : List Char
  src_span : Nat × Option Nat
deriving DecidableEq, Repr

/-- The inner `convert_line` of `span_from_github_link`: `-L` followed
by digits, panicking (via `expect`) when the digits overflow a usize. -/
def convertLine : Pc Nat := fun i =>
  (do
    let _ ← pTag "-L".toList
    let ds ← pDigit1
    match parseUsize ds with
    | some e => (pure e : Pc Nat)
    | none => fun _ => .panic) i

/-- `span_from_github_link` from issue.rs: `#L<start>[-L<end>]`, with a
panic (via `expect`) when a digit run overflows a usize. -/
def span_from_github_link : Pc (Nat × Option Nat) := do
  let _ ← pTag "#L".toList
  let ds ← pDigit1
  match parseUsize ds with
  | some start => do
    let mayEnd ← pOpt convertLine
    pure (start, mayEnd)
  | none => fun _ => .panic

/-- `repo_from_github_link` from issue.rs. -/
def repo_from_github_link : Pc (List Char × List Char) := do
  let user ← pTakeTill (fun c => c = '/')
  let _ ← pChar '/'
  let repo ← pTakeTill (fun c => c = '/')
  pure (user, repo)

/-- `todo_location_from_github_link` from issue.rs. -/
def todo_location_from_github_link : Pc GitHubTodoLocation := do
  let _ ← pTag "https://github.com/".toList
  let repo ← repo_from_github_link
  let _ ← pChar '/'
  let _ ← pTag "blob".toList
  let _ ← pChar '/'
  let checkout ← pTakeTill (fun c => c = '/')
  let _ ← pChar '/'
  let file ← pTakeTill (fun c => c = '#')
  let span ← span_from_github_link
  pure { repo := repo, checkout := checkout, file := file, src_span := span }

/-! ## finder/parse.rs -/

/-- `parse_rg_line` from finder/parse.rs: `<digits>:<rest of line>`,
panicking (via `expect`) when the digits overflow a usize. -/
def parse_rg_line : Pc Nat := do
  let ds ← pDigit1
  let _ ← pChar ':'
  let _ ← take_to_eol
  match parseUsize ds with
  | some n => (pure n : Pc Nat)
  | none => fun _ => .panic

/-! ## parser.rs: issues, maps, patches, links, pipeline -/

/-- `IssueHead` from parser.rs. -/
@[ext] structure IssueHead (K : Type) where
  title : List Char
  assignees : List (List Char)
  external_id : K
deriving DecidableEq, Repr

/-- `IssueBody` from parser.rs. -/
@[ext] structure IssueBody (L : Type) where
  descs_and_srcs : List (List (List Char) × L)
deriving DecidableEq, Repr

/-- `Issue` from parser.rs. -/
@[ext] structure Issue (K L : Type) where
  head : IssueHead K
  body : IssueBody L
deriving DecidableEq, Repr

/-- `Issue::new`. -/
def Issue.new {K L : Type} (id : K) (title : List Char) : Issue K L :=
  { head := { title := title, assignees := [], external_id := id },
    body := { descs_and_srcs := [] } }

/-- An `IssueMap`'s `todos` hash map, modelled as an association list
with unique keys; iteration order of the hash map is an arbitrary
order of the entries, so theorems quantify over all such lists. -/
abbrev IssueMap (K L : Type) : Type := List (List Char × Issue K L)

/-- `HashMap::get` on the association-list model. -/
def lookupIM {K L : Type} (t : List Char) : IssueMap K L → Option (Issue K L)
  | [] => none
  | (k, v) :: rest => if k = t then some v else lookupIM t rest

/-- `FileTodoLocation` from parser.rs. -/
structure FileTodoLocation where
  file : List Char
  src_span : Nat × Option Nat
deriving DecidableEq, Repr

/-- `GitHubPatch` from github.rs. -/
structure GitHubPatch where
  create : IssueMap Unit FileTodoLocation
  edit : IssueMap Nat FileTodoLocation
  delete : List Nat

/-- The per-entry update of `IssueMap::add_parsed_todo`: push the
assignee when it is new, and append the occurrence to the body. -/
def updIssue (todo : ParsedTodo) (loc : FileTodoLocation)
    (iss : Issue Unit FileTodoLocation) : Issue Unit FileTodoLocation :=
  let withAssignee :=
    match todo.assignee with
    | some a =>
      if a ∈ iss.head.assignees then iss
      else { iss with head := { iss.head with assignees := iss.head.assignees ++ [a] } }
    | none => iss
  { withAssignee with
    body := { descs_and_srcs :=
      withAssignee.body.descs_and_srcs ++ [(todo.desc_lines, loc)] } }

/-- `IssueMap::add_parsed_todo` from parser.rs: find or insert the
entry for the todo's title, then update it. -/
def add_parsed_todo (m : IssueMap Unit FileTodoLocation)
    (todo : ParsedTodo) (loc : FileTodoLocation) : IssueMap Unit FileTodoLocation :=
  match lookupIM todo.title m with
  | some _ => m.map (fun p => if p.1 = todo.title then (p.1, updIssue todo loc p.2) else p)
  | none => m ++ [(todo.title, updIssue todo loc (Issue.new () todo.title))]

/-- One step of the fold inside `IssueMap::prepare_patch` over the
local issues: accumulator is (create, edit, dont_delete). -/
def ppStep (remote : IssueMap Nat GitHubTodoLocation)
    (acc : IssueMap Unit FileTodoLocation × IssueMap Nat FileTodoLocation × List Nat)
    (tl : List Char × Issue Unit FileTodoLocation) :
    IssueMap Unit FileTodoLocation × IssueMap Nat FileTodoLocation × List Nat :=
  match lookupIM tl.1 remote with
  | some ri =>
    (acc.1, acc.2.1 ++ [(tl.1, { head := ri.head, body := tl.2.body })],
     acc.2.2 ++ [ri.head.external_id])
  | none => (acc.1 ++ [(tl.1, tl.2)], acc.2.1, acc.2.2)

/-- `IssueMap::prepare_patch` from parser.rs: local issues found in the
remote map become edits and protect the remote id from deletion, the
others become creates; every remote id not protected is deleted. -/
def prepare_patch (remote : IssueMap Nat GitHubTodoLocation)
    (local_ : IssueMap Unit FileTodoLocation) : GitHubPatch :=
  let acc := local_.foldl (ppStep remote) ([], [], [])
  { create := acc.1
    edit := acc.2.1
    delete := remote.filterMap (fun r =>
      if r.2.head.external_id ∈ acc.2.2 then none else some r.2.head.external_id) }

/-- `Path::strip_prefix` as used by `to_github_link`, for plain paths:
the relative remainder after the working directory and a separating
slash. -/
def stripPrefixPath (cwd file : List Char) : Option (List Char) :=
  if (cwd ++ ['/']).isPrefixOf file then some (file.drop (cwd.length + 1))
  else if file = cwd then some [] else none

/-- `[..].join("/")` on a list of parts. -/
def joinSlash : List (List Char) → List Char
  | [] => []
  | [x] => x
  | x :: xs => x ++ '/' :: joinSlash xs

/-- `FileTodoLocation::to_github_link` from parser.rs.  The error case
models the `PrefixError` when the file does not live under `cwd`. -/
def to_github_link (loc : FileTodoLocation)
    (cwd owner repo checkout : List Char) : Except Unit (List Char) :=
  match stripPrefixPath cwd loc.file with
  | none => .error ()
  | some rel =>
    let fileAndRange := rel ++ "#L".toList ++ natDigits loc.src_span.1 ++
      (match loc.src_span.2 with
       | some e => "-L".toList ++ natDigits e
       | none => [])
    .ok (joinSlash ["https://github.com".toList, owner, repo,
      "blob".toList, checkout, fileAndRange])

/-! ## parser.rs: `from_files_in_directory` -/

/-- Advance the line cursor by taking whole lines, modelling the
`while line > current_line` seek loop (one `take_to_eol` per line). -/
def advanceLines : Nat → List Char → List Char
  | 0, i => i
  | k + 1, i => advanceLines k (takeToEolT i).2

/-- The number of source lines consumed by a successful inner todo
scan: `i.trim_end_matches(j).lines().count()` from parser.rs. -/
def numLinesConsumed (i j : List Char) : Nat :=
  (rustLines (trimEndMatchesL j i)).length

/-- The per-candidate-line language loop of `from_files_in_directory`:
every language mapped to the extension is tried, and every successful
attempt records the todo (the loop does not stop at the first
success). -/
def tryLangs (langs : List TodoParserConfig) (fileName : List Char)
    (ln : Nat) (i : List Char) (m : IssueMap Unit FileTodoLocation) :
    IssueMap Unit FileTodoLocation :=
  langs.foldl (fun m cfg =>
    match parse_todo cfg i with
    | .ok j todo =>
      let numLines := numLinesConsumed i j
      let loc : FileTodoLocation :=
        { file := fileName
          src_span := (ln, if numLines > 1 then some (ln + numLines - 1) else none) }
      add_parsed_todo m todo loc
    | _ => m) m

/-- The per-file loop over candidate line numbers, with the forward-only
line cursor starting at line 1. -/
def processLines (langs : List TodoParserConfig) (fileName : List Char) :
    List Nat → Nat → List Char → IssueMap Unit FileTodoLocation →
    IssueMap Unit FileTodoLocation
  | [], _, _, m => m
  | ln :: rest, current, i, m =>
    let i2 := advanceLines (ln - current) i
    processLines langs fileName rest (max current ln) i2
      (tryLangs langs fileName ln i2 m)

/-- One candidate file from the locator: its path, its extension (when
present), and the candidate line numbers to search. -/
structure CandidateFile where
  file : List Char
  ext : Option String
  lines_to_search : List Nat
deriving DecidableEq

/-- The file loop of `IssueMap::from_files_in_directory`.  The language
registry and the file system are parameters: `langMap` models
`language_map()` restricted to parser configs, and `fs` returns a
file's contents or `none` for an I/O failure.  A file without an
extension, or with an unmapped extension, is skipped (the unsupported
notice is not modelled); a read failure is propagated with `?` and
aborts the whole fold, as in the source. -/
def fromFilesGo (langMap : String → Option (List TodoParserConfig))
    (fs : List Char → Option (List Char)) :
    List CandidateFile → IssueMap Unit FileTodoLocation →
    Except Unit (IssueMap Unit FileTodoLocation)
  | [], m => .ok m
  | f :: rest, m =>
    match f.ext with
    | none => fromFilesGo langMap fs rest m
    | some ext =>
      match langMap ext with
      | none => fromFilesGo langMap fs rest m
      | some langs =>
        match fs f.file with
        | none => .error ()
        | some contents =>
          fromFilesGo langMap fs rest
            (processLines langs f.file f.lines_to_search 1 contents m)

/-- `IssueMap::from_files_in_directory` from parser.rs, over a given
candidate list, language registry and file system. -/
def from_files_in_directory (langMap : String → Option (List TodoParserConfig))
    (fs : List Char → Option (List Char)) (files : List CandidateFile) :
    Except Unit (IssueMap Unit FileTodoLocation) :=
  fromFilesGo langMap fs files []

/-! ## Specification-side definitions

These definitions follow the wording of the specification (not the
source); they are compared with the source-derived definitions above. -/

/-- Sentence-boundary acceptance from the specification of
`sentence_and_terminator`: position `n` is an accepted split point when
the character before it is a terminator and the character at it is a
space or the input ends there.  The accepted positions are exactly the
ends of terminator runs immediately followed by a space or by the end
of the input. -/
def acceptB (s : List Char) (n : Nat) : Bool :=
  match n with
  | 0 => false
  | m + 1 =>
    (match s.get? m with
     | some c => isTerm c
     | none => false) &&
    (match s.get? (m + 1) with
     | none => true
     | some c => c = ' ')

/-- One layer of surrounding quote characters removed, as the claim
about the macro-call parser words it: at most one leading and at most
one trailing quote. -/
def oneLayerDequote (s : List Char) : List Char :=
  let s1 := if s.head? = some '"' then s.tail else s
  if s1.getLast? = some '"' then s1.dropLast else s1

/-- Duplicate-free list of names in first-seen order, as the claim
about `add_parsed_todo` words it. -/
def firstSeen (l : List (List Char)) : List (List Char) :=
  l.foldl (fun acc a => if a ∈ acc then acc else acc ++ [a]) []

/-- The optional `-L<end>` tail of a rendered link. -/
def endPartOf : Option Nat → List Char
  | none => []
  | some e => "-L".toList ++ natDigits e

/-- The link produced by `to_github_link` for a file `rel` under the
working directory, as a function of its parts. -/
def linkOf (owner repo checkout rel : List Char) (start : Nat)
    (me : Option Nat) : List Char :=
  joinSlash ["https://github.com".toList, owner, repo, "blob".toList,
    checkout, rel ++ "#L".toList ++ natDigits start ++ endPartOf me]

/-- The external ids of the remote issues matched by no local title, as
the claim about `prepare_patch` words it. -/
def unmatchedRemoteIds (remote : IssueMap Nat GitHubTodoLocation)
    (local_ : IssueMap Unit FileTodoLocation) : List Nat :=
  (remote.filter (fun e => decide (e.1 ∉ local_.map Prod.fst))).map
    (fun e => e.2.head.external_id)

/-- The occurrences with a given title, in scan order, among a list of
extracted todos. -/
def occurrencesOf (t : List Char)
    (l : List (ParsedTodo × FileTodoLocation)) :
    List (ParsedTodo × FileTodoLocation) :=
  l.filter (fun p => decide (p.1.title = t))

/-- Folding a scan's worth of extracted todos into an issue map with
`add_parsed_todo`, starting from the empty map. -/
def buildMap (l : List (ParsedTodo × FileTodoLocation)) :
    IssueMap Unit FileTodoLocation :=
  l.foldl (fun m p => add_parsed_todo m p.1 p.2) []

/-- Folding occurrences into one issue with `updIssue`. -/
def extendIssue (occs : List (ParsedTodo × FileTodoLocation))
    (iss : Issue Unit FileTodoLocation) : Issue Unit FileTodoLocation :=
  occs.foldl (fun i p => updIssue p.1 p.2 i) iss

/-- The effect of a list of occurrences of one title on that title's
map entry: an existing issue is extended, a missing one is created by
the first occurrence and extended by the rest. -/
def applyOccs (t : List Char) (o : Option (Issue Unit FileTodoLocation))
    (occs : List (ParsedTodo × FileTodoLocation)) :
    Option (Issue Unit FileTodoLocation) :=
  match o, occs with
  | some iss, _ => some (extendIssue occs iss)
  | none, [] => none
  | none, p :: rest => some (extendIssue rest (updIssue p.1 p.2 (Issue.new () t)))

/-- Push names one by one, keeping only first occurrences. -/
def pushAll (acc : List (List Char)) (l : List (List Char)) : List (List Char) :=
  l.foldl (fun acc a => if a ∈ acc then acc else acc ++ [a]) acc

/-! ## Concrete instances used by examples and counterexamples -/

/-- The remote map of the patch-computation example: issue 1 titled A,
issue 2 titled B. -/
def exRemote : IssueMap Nat GitHubTodoLocation :=
  [("A".toList, Issue.new 1 "A".toList), ("B".toList, Issue.new 2 "B".toList)]

/-- A local issue body used to show that edits carry the local body. -/
def exBodyA : IssueBody FileTodoLocation :=
  { descs_and_srcs := [(["descA".toList], { file := "a.rs".toList, src_span := (3, none) })] }

/-- The local map of the patch-computation example: titles A and C. -/
def exLocal : IssueMap Unit FileTodoLocation :=
  [("A".toList, { (Issue.new () "A".toList : Issue Unit FileTodoLocation) with
      body := exBodyA }),
   ("C".toList, Issue.new () "C".toList)]

/-- A remote map in which two distinct issues share external id 1. -/
def exRemoteDup : IssueMap Nat GitHubTodoLocation :=
  [("A".toList, Issue.new 1 "A".toList), ("B".toList, Issue.new 1 "B".toList)]

/-- A local map containing only title A. -/
def exLocalA : IssueMap Unit FileTodoLocation :=
  [("A".toList, Issue.new () "A".toList)]

/-- A registry fragment mapping the extension `h` to the two languages
that declare it, C-family and Objective-C, as `language_map()` does. -/
def c2LangMap : String → Option (List TodoParserConfig) := fun e =>
  if e = "h" then some [fromCommentStyles c_style, fromCommentStyles objc_style]
  else none

/-- A file system with one C header containing one todo line. -/
def c2Fs : List Char → Option (List Char) := fun f =>
  if f = "f.h".toList then some "// TODO: Hi.\n".toList else none

/-- The expected issue map entry for the `f.h` scan: one issue, two
identical recorded occurrences. -/
def c2Expected : IssueMap Unit FileTodoLocation :=
  [("Hi.".toList,
    { head := { title := "Hi.".toList, assignees := [], external_id := () },
      body := { descs_and_srcs :=
        [([], { file := "f.h".toList, src_span := (1, none) }),
         ([], { file := "f.h".toList, src_span := (1, none) })] } })]

/-- A registry fragment mapping the extension `rs` to Rust. -/
def rsLangMap : String → Option (List TodoParserConfig) := fun e =>
  if e = "rs" then some [fromCommentStyles rust_style] else none

/-- A file system where reading `a.rs` fails and `b.rs` holds a todo. -/
def c7Fs : List Char → Option (List Char) := fun f =>
  if f = "b.rs".toList then some "// TODO: Fix me.\n".toList else none

/-- The two candidate files of the I/O-failure scenario. -/
def c7Files : List CandidateFile :=
  [{ file := "a.rs".toList, ext := some "rs", lines_to_search := [1] },
   { file := "b.rs".toList, ext := some "rs", lines_to_search := [1] }]

/-! ## Theorems -/

/-- C10: the line-number readers are not total: on the syntactically
well-formed link fragment `#L99999999999999999999999` the span reader
panics (models the `expect` on `parse::<usize>`) instead of returning a
parse error, and the rg output line reader panics on the analogous
`<digits>:` line. -/
theorem c10_line_number_overflow_panics :
    span_from_github_link "#L99999999999999999999999".toList = .panic ∧
    parse_rg_line "99999999999999999999999:junk line\n".toList = .panic :=
  ⟨rfl, rfl⟩

/-- C2, divergence witness: scanning a header file whose extension is
mapped to two languages records the one candidate line twice, because
the language loop of `from_files_in_directory` does not stop at the
first successful attempt; the resulting issue body holds two identical
occurrences where the claim (and the loop's own comment) allow at most
one. -/
theorem c2_duplicate_recording :
    from_files_in_directory c2LangMap c2Fs
      [{ file := "f.h".toList, ext := some "h", lines_to_search := [1] }] =
      .ok c2Expected ∧
    (c2Expected.map (fun e => e.2.body.descs_and_srcs.length)) = [2] :=
  ⟨rfl, rfl⟩

/-- C6, divergence witness: after a standard tag with empty
parentheses the single-line eater returns no assignee, but the
multi-line eater returns the empty-string assignee `some ""`. -/
theorem c6_empty_parens_divergence :
    single_line_todo [] "--".toList "-- TODO(): Fix it now.\n".toList =
      .ok [] { title := "Fix it now.".toList, assignee := none, desc_lines := [] } ∧
    multi_line_todo ["|".toList] "\x7b-".toList "-\x7d".toList
        "\x7b- TODO(): Fix it now. -\x7d\n".toList =
      .ok [] { title := "Fix it now.".toList, assignee := some [], desc_lines := [] } :=
  ⟨rfl, rfl⟩

/-- C1, counterexample: when two remote issues share an external id,
the delete list is not the list of external ids of the remote issues
matched by no local title.  Here remote holds issues titled A and B,
both with id 1, and local holds only A: issue B is matched by no local
title, so the claim demands delete = [1], but the code deletes
nothing because id 1 was marked keep for A. -/
theorem c1_counterexample_duplicate_ids :
    (prepare_patch exRemoteDup exLocalA).delete = [] ∧
    unmatchedRemoteIds exRemoteDup exLocalA = [1] :=
  ⟨rfl, rfl⟩

/-- C5, counterexample: the macro-call body eater trims every layer of
surrounding quote characters (`trim_matches`), not one layer: on
`todo!(""Quoted"");` the recorded title is `Quoted`, while trimming
one layer of quotes from the content leaves `"Quoted"`. -/
theorem c5_counterexample_quote_layers :
    parse_todo (fromCommentStyles rust_style) "todo!(\"\"Quoted\"\");".toList =
      .ok ";".toList { title := "Quoted".toList, assignee := none, desc_lines := [] } ∧
    oneLayerDequote (rustTrim "\"\"Quoted\"\"".toList) = "\"Quoted\"".toList ∧
    "Quoted".toList ≠ "\"Quoted\"".toList :=
  ⟨rfl, rfl, by decide⟩

/-- C7, counterexample: a failed read of the first candidate file makes
the whole run return an error, even though the remaining candidate file
parses to a todo when scanned on its own; the claim demands that the
scan continue past the failing file. -/
theorem c7_counterexample_io_aborts_run :
    from_files_in_directory rsLangMap c7Fs c7Files = .error () ∧
    from_files_in_directory rsLangMap c7Fs
      [{ file := "b.rs".toList, ext := some "rs", lines_to_search := [1] }] =
      .ok [("Fix me.".toList,
        { head := { title := "Fix me.".toList, assignees := [], external_id := () },
          body := { descs_and_srcs :=
            [([], { file := "b.rs".toList, src_span := (1, none) })] } })] :=
  ⟨rfl, rfl⟩

/-- C8, counterexample: for a file path containing `#`, rendering
succeeds but re-reading the produced link fails (the file segment stops
at the first `#`), so the link does not round-trip as the claim states
for every file path under the working directory. -/
theorem c8_counterexample_hash_in_path :
    to_github_link { file := "/repo/a#b.rs".toList, src_span := (10, some 12) }
        "/repo".toList "o".toList "r".toList "abc".toList =
      .ok "https://github.com/o/r/blob/abc/a#b.rs#L10-L12".toList ∧
    todo_location_from_github_link
        "https://github.com/o/r/blob/abc/a#b.rs#L10-L12".toList = .err :=
  ⟨rfl, rfl⟩

/-! ### Lemmas about the issue map fold (claim C3) -/

theorem lookupIM_append {K L : Type} (t : List Char) (m1 m2 : IssueMap K L) :
    lookupIM t (m1 ++ m2) =
      match lookupIM t m1 with
      | some v => some v
      | none => lookupIM t m2 := by
  induction m1 with
  | nil => simp [lookupIM]
  | cons p rest ih =>
    by_cases h : p.1 = t <;> simp [lookupIM, h, ih]

theorem lookupIM_mapUpd {K L : Type} (t s : List Char) (m : IssueMap K L)
    (f : Issue K L → Issue K L) :
    lookupIM t (m.map (fun p => if p.1 = s then (p.1, f p.2) else p)) =
      if t = s then (lookupIM t m).map f else lookupIM t m := by
  induction m with
  | nil => by_cases h : t = s <;> simp [lookupIM, h]
  | cons p rest ih =>
    simp only [List.map_cons]
    by_cases hp : p.1 = s
    · rw [if_pos hp]
      by_cases hpt : p.1 = t
      · have ht : t = s := hpt ▸ hp
        simp [lookupIM, hpt, ht]
      · rw [lookupIM, if_neg hpt, ih, lookupIM, if_neg hpt]
    · rw [if_neg hp]
      by_cases hpt : p.1 = t
      · have ht : ¬(t = s) := fun h => hp (by rw [hpt, h])
        simp [lookupIM, hpt, ht]
      · rw [lookupIM, if_neg hpt, ih, lookupIM, if_neg hpt]

theorem keys_mapUpd {K L : Type} (s : List Char) (m : IssueMap K L)
    (f : Issue K L → Issue K L) :
    (m.map (fun p => if p.1 = s then (p.1, f p.2) else p)).map Prod.fst =
      m.map Prod.fst := by
  induction m with
  | nil => simp
  | cons p rest ih =>
    by_cases hp : p.1 = s <;> simp [hp, ih]

theorem lookupIM_eq_none_iff {K L : Type} (t : List Char) (m : IssueMap K L) :
    lookupIM t m = none ↔ t ∉ m.map Prod.fst := by
  induction m with
  | nil => simp [lookupIM]
  | cons p rest ih =>
    rw [lookupIM]
    by_cases h : p.1 = t
    · rw [if_pos h]
      constructor
      · intro contra
        exact absurd contra (Option.some_ne_none _)
      · intro hn
        exfalso
        apply hn
        rw [List.map_cons, h]
        exact List.mem_cons_self t _
    · rw [if_neg h, ih]
      constructor
      · intro hn
        simp only [List.map_cons, List.mem_cons]
        rintro (he | he)
        · exact h he.symm
        · exact hn he
      · intro hn
        simp only [List.map_cons, List.mem_cons] at hn
        exact fun he => hn (Or.inr he)

theorem lookupIM_cons_self {K L : Type} (t : List Char) (v : Issue K L)
    (rest : IssueMap K L) : lookupIM t ((t, v) :: rest) = some v := by
  rw [lookupIM, if_pos rfl]

theorem lookupIM_cons_ne {K L : Type} (t k : List Char) (v : Issue K L)
    (rest : IssueMap K L) (h : ¬(k = t)) :
    lookupIM t ((k, v) :: rest) = lookupIM t rest := by
  rw [lookupIM, if_neg h]

theorem lookupIM_add_parsed_todo (m : IssueMap Unit FileTodoLocation)
    (td : ParsedTodo) (loc : FileTodoLocation) (t : List Char) :
    lookupIM t (add_parsed_todo m td loc) =
      if t = td.title then
        some (updIssue td loc ((lookupIM td.title m).getD (Issue.new () td.title)))
      else lookupIM t m := by
  unfold add_parsed_todo
  cases h : lookupIM td.title m with
  | some v =>
    rw [lookupIM_mapUpd]
    by_cases ht : t = td.title
    · rw [if_pos ht, if_pos ht, ht, h]
      rfl
    · rw [if_neg ht, if_neg ht]
  | none =>
    rw [lookupIM_append]
    by_cases ht : t = td.title
    · subst ht
      rw [if_pos rfl, h, lookupIM_cons_self]
      rfl
    · rw [if_neg ht]
      cases hm : lookupIM t m with
      | some v => rfl
      | none =>
        rw [lookupIM_cons_ne _ _ _ _ (fun hh => ht hh.symm)]
        rfl

theorem keys_add_parsed_todo (m : IssueMap Unit FileTodoLocation)
    (td : ParsedTodo) (loc : FileTodoLocation) :
    (add_parsed_todo m td loc).map Prod.fst =
      if lookupIM td.title m = none then m.map Prod.fst ++ [td.title]
      else m.map Prod.fst := by
  unfold add_parsed_todo
  cases h : lookupIM td.title m with
  | some v => rw [keys_mapUpd, if_neg (Option.some_ne_none v)]
  | none =>
    rw [if_pos rfl, List.map_append]
    rfl

theorem buildMap_keys_nodup_aux (l : List (ParsedTodo × FileTodoLocation))
    (m : IssueMap Unit FileTodoLocation) (h : (m.map Prod.fst).Nodup) :
    ((l.foldl (fun m p => add_parsed_todo m p.1 p.2) m).map Prod.fst).Nodup := by
  induction l generalizing m with
  | nil => exact h
  | cons p rest ih =>
    refine ih _ ?_
    rw [keys_add_parsed_todo]
    by_cases hl : lookupIM p.1.title m = none
    · rw [if_pos hl]
      have hni : p.1.title ∉ m.map Prod.fst := (lookupIM_eq_none_iff _ _).mp hl
      rw [List.nodup_append]
      refine ⟨h, List.nodup_singleton _, ?_⟩
      intro a ha hb
      simp only [List.mem_singleton] at hb
      exact hni (hb ▸ ha)
    · rw [if_neg hl]
      exact h

theorem extendIssue_cons (p : ParsedTodo × FileTodoLocation)
    (rest : List (ParsedTodo × FileTodoLocation))
    (iss : Issue Unit FileTodoLocation) :
    extendIssue (p :: rest) iss = extendIssue rest (updIssue p.1 p.2 iss) := rfl

theorem updIssue_title (td : ParsedTodo) (loc : FileTodoLocation)
    (iss : Issue Unit FileTodoLocation) :
    (updIssue td loc iss).head.title = iss.head.title := by
  unfold updIssue
  cases td.assignee with
  | none => rfl
  | some a => by_cases h : a ∈ iss.head.assignees <;> simp [h]

theorem updIssue_body (td : ParsedTodo) (loc : FileTodoLocation)
    (iss : Issue Unit FileTodoLocation) :
    (updIssue td loc iss).body.descs_and_srcs =
      iss.body.descs_and_srcs ++ [(td.desc_lines, loc)] := by
  unfold updIssue
  cases td.assignee with
  | none => rfl
  | some a => by_cases h : a ∈ iss.head.assignees <;> simp [h]

theorem updIssue_assignees (td : ParsedTodo) (loc : FileTodoLocation)
    (iss : Issue Unit FileTodoLocation) :
    (updIssue td loc iss).head.assignees =
      pushAll iss.head.assignees (([td] : List ParsedTodo).filterMap
        (fun q => q.assignee)) := by
  unfold updIssue
  cases hpa : td.assignee with
  | none => simp [pushAll, List.filterMap_cons, hpa]
  | some a =>
    by_cases h : a ∈ iss.head.assignees <;>
      simp [pushAll, List.filterMap_cons, hpa, h]

theorem extendIssue_title (occs : List (ParsedTodo × FileTodoLocation))
    (iss : Issue Unit FileTodoLocation) :
    (extendIssue occs iss).head.title = iss.head.title := by
  induction occs generalizing iss with
  | nil => rfl
  | cons p rest ih =>
    rw [extendIssue_cons, ih, updIssue_title]

theorem extendIssue_body (occs : List (ParsedTodo × FileTodoLocation))
    (iss : Issue Unit FileTodoLocation) :
    (extendIssue occs iss).body.descs_and_srcs =
      iss.body.descs_and_srcs ++ occs.map (fun p => (p.1.desc_lines, p.2)) := by
  induction occs generalizing iss with
  | nil => simp [extendIssue]
  | cons p rest ih =>
    rw [extendIssue_cons, ih, updIssue_body]
    simp

theorem pushAll_append (acc : List (List Char)) (l1 l2 : List (List Char)) :
    pushAll (pushAll acc l1) l2 = pushAll acc (l1 ++ l2) := by
  simp [pushAll, List.foldl_append]

theorem extendIssue_assignees (occs : List (ParsedTodo × FileTodoLocation))
    (iss : Issue Unit FileTodoLocation) :
    (extendIssue occs iss).head.assignees =
      pushAll iss.head.assignees (occs.filterMap (fun p => p.1.assignee)) := by
  induction occs generalizing iss with
  | nil => simp [extendIssue, pushAll]
  | cons p rest ih =>
    rw [extendIssue_cons, ih, updIssue_assignees]
    rw [pushAll_append]
    congr 1
    cases hpa : p.1.assignee <;> simp [List.filterMap_cons, hpa]

theorem build_lookup (l : List (ParsedTodo × FileTodoLocation))
    (m : IssueMap Unit FileTodoLocation) (t : List Char) :
    lookupIM t (l.foldl (fun m p => add_parsed_todo m p.1 p.2) m) =
      applyOccs t (lookupIM t m) (occurrencesOf t l) := by
  induction l generalizing m with
  | nil =>
    simp only [List.foldl_nil, occurrencesOf, List.filter_nil]
    cases h : lookupIM t m <;> simp [applyOccs, extendIssue]
  | cons p rest ih =>
    rw [List.foldl_cons, ih]
    rw [lookupIM_add_parsed_todo]
    by_cases ht : t = p.1.title
    · have hocc : occurrencesOf t (p :: rest) = p :: occurrencesOf t rest := by
        simp [occurrencesOf, List.filter_cons, ht.symm]
      rw [hocc, if_pos ht]
      subst ht
      cases hm : lookupIM p.1.title m with
      | some iss =>
        simp only [Option.getD_some, applyOccs, extendIssue_cons]
      | none =>
        simp only [Option.getD_none, applyOccs, extendIssue_cons]
    · have hocc : occurrencesOf t (p :: rest) = occurrencesOf t rest := by
        have hne : ¬(p.1.title = t) := fun h => ht h.symm
        simp [occurrencesOf, List.filter_cons, hne]
      rw [hocc, if_neg ht]

theorem pushAll_nodup (acc : List (List Char)) (l : List (List Char))
    (h : acc.Nodup) : (pushAll acc l).Nodup := by
  induction l generalizing acc with
  | nil => exact h
  | cons a rest ih =>
    simp only [pushAll, List.foldl_cons]
    by_cases ha : a ∈ acc
    · rw [if_pos ha]
      exact ih acc h
    · rw [if_neg ha]
      refine ih _ ?_
      rw [List.nodup_append]
      refine ⟨h, List.nodup_singleton _, ?_⟩
      intro x hx hb
      simp only [List.mem_singleton] at hb
      exact ha (hb ▸ hx)

/-- C3: folding extracted todos into an `IssueMap` with
`add_parsed_todo` keeps titles unique; the entry of a title is exactly
the merge of all its occurrences in fold order, one body entry per
occurrence; and its assignee list is each distinct assignee once in
first-seen order, hence duplicate-free. -/
theorem c3_add_parsed_todo_invariants
    (l : List (ParsedTodo × FileTodoLocation)) (t : List Char) :
    ((buildMap l).map Prod.fst).Nodup ∧
    lookupIM t (buildMap l) =
      (if (occurrencesOf t l).isEmpty then none
       else some
        { head :=
          { title := t
            assignees := firstSeen
              ((occurrencesOf t l).filterMap (fun p => p.1.assignee))
            external_id := () }
          body := { descs_and_srcs :=
            (occurrencesOf t l).map (fun p => (p.1.desc_lines, p.2)) } }) ∧
    (∀ xs : List (List Char), (firstSeen xs).Nodup) := by
  refine ⟨buildMap_keys_nodup_aux l [] (by simp), ?_, ?_⟩
  · rw [buildMap, build_lookup]
    have h0 : lookupIM t ([] : IssueMap Unit FileTodoLocation) = none := rfl
    rw [h0]
    cases hocc : occurrencesOf t l with
    | nil => rfl
    | cons p rest =>
      simp only [applyOccs, List.isEmpty_cons, Bool.false_eq_true, if_false]
      refine congrArg some ?_
      refine Issue.ext ?_ ?_
      · refine IssueHead.ext ?_ ?_ rfl
        · rw [extendIssue_title, updIssue_title]
          rfl
        · rw [extendIssue_assignees, updIssue_assignees, pushAll_append]
          have hh : (Issue.new () t : Issue Unit FileTodoLocation).head.assignees
              = [] := rfl
          rw [hh]
          show pushAll [] _ = pushAll [] _
          congr 1
          cases hpa : p.1.assignee <;> simp [List.filterMap_cons, hpa]
      · refine IssueBody.ext ?_
        rw [extendIssue_body, updIssue_body]
        have hb : (Issue.new () t : Issue Unit FileTodoLocation).body.descs_and_srcs
            = [] := rfl
        rw [hb]
        simp
  · intro xs
    exact pushAll_nodup [] xs (by simp)

/-! ### Lemmas about prepare_patch (claims C1 and C9) -/

theorem pp_fold_spec (remote : IssueMap Nat GitHubTodoLocation)
    (l : IssueMap Unit FileTodoLocation)
    (c : IssueMap Unit FileTodoLocation) (e : IssueMap Nat FileTodoLocation)
    (d : List Nat) :
    l.foldl (ppStep remote) (c, e, d) =
      (c ++ l.filter (fun tl => (lookupIM tl.1 remote).isNone),
       e ++ l.filterMap (fun tl => (lookupIM tl.1 remote).map
         (fun ri => (tl.1, { head := ri.head, body := tl.2.body }))),
       d ++ l.filterMap (fun tl => (lookupIM tl.1 remote).map
         (fun ri => ri.head.external_id))) := by
  induction l generalizing c e d with
  | nil => simp
  | cons p rest ih =>
    rw [List.foldl_cons]
    have hstep : ppStep remote (c, e, d) p =
        match lookupIM p.1 remote with
        | some ri => (c, e ++ [(p.1, { head := ri.head, body := p.2.body })],
            d ++ [ri.head.external_id])
        | none => (c ++ [(p.1, p.2)], e, d) := rfl
    cases h : lookupIM p.1 remote with
    | some ri =>
      rw [hstep, h, ih]
      simp [List.filter_cons, List.filterMap_cons, h]
    | none =>
      rw [hstep, h, ih]
      simp [List.filter_cons, List.filterMap_cons, h]

theorem prepare_patch_create (remote : IssueMap Nat GitHubTodoLocation)
    (local_ : IssueMap Unit FileTodoLocation) :
    (prepare_patch remote local_).create =
      local_.filter (fun tl => (lookupIM tl.1 remote).isNone) := by
  unfold prepare_patch
  rw [pp_fold_spec]
  rfl

theorem prepare_patch_edit (remote : IssueMap Nat GitHubTodoLocation)
    (local_ : IssueMap Unit FileTodoLocation) :
    (prepare_patch remote local_).edit =
      local_.filterMap (fun tl => (lookupIM tl.1 remote).map
        (fun ri => (tl.1, { head := ri.head, body := tl.2.body }))) := by
  unfold prepare_patch
  rw [pp_fold_spec]
  rfl

/-- The dont_delete list accumulated by `prepare_patch`. -/
theorem prepare_patch_delete (remote : IssueMap Nat GitHubTodoLocation)
    (local_ : IssueMap Unit FileTodoLocation) :
    (prepare_patch remote local_).delete =
      remote.filterMap (fun r =>
        if r.2.head.external_id ∈ local_.filterMap (fun tl =>
            (lookupIM tl.1 remote).map (fun ri => ri.head.external_id))
        then none else some r.2.head.external_id) := by
  unfold prepare_patch
  rw [pp_fold_spec]
  rfl

theorem lookupIM_mem {K L : Type} (t : List Char) (m : IssueMap K L)
    (v : Issue K L) (h : lookupIM t m = some v) : (t, v) ∈ m := by
  induction m with
  | nil => exact absurd h (by rw [lookupIM]; exact Option.noConfusion)
  | cons p rest ih =>
    rw [lookupIM] at h
    by_cases hp : p.1 = t
    · rw [if_pos hp] at h
      injection h with h2
      subst h2
      subst hp
      exact List.mem_cons_self p rest
    · rw [if_neg hp] at h
      exact List.mem_cons_of_mem _ (ih h)

theorem mem_lookupIM {K L : Type} (t : List Char) (m : IssueMap K L)
    (v : Issue K L) (hk : (m.map Prod.fst).Nodup) (h : (t, v) ∈ m) :
    lookupIM t m = some v := by
  induction m with
  | nil => cases h
  | cons p rest ih =>
    rw [List.map_cons] at hk
    have hk2 := List.Nodup.of_cons hk
    have hk1 : p.1 ∉ rest.map Prod.fst := by
      intro hmem
      exact (List.nodup_cons.mp hk).1 hmem
    cases h with
    | head =>
      rw [lookupIM, if_pos rfl]
    | tail _ hmem =>
      have hne : ¬(p.1 = t) := by
        intro hpt
        apply hk1
        rw [hpt]
        exact List.mem_map_of_mem Prod.fst hmem
      rw [lookupIM, if_neg hne]
      exact ih hk2 hmem

/-- With unique remote titles and pairwise-distinct remote ids, a
remote issue's id is in dont_delete exactly when its title is a local
title. -/
theorem dd_mem_iff (remote : IssueMap Nat GitHubTodoLocation)
    (local_ : IssueMap Unit FileTodoLocation)
    (hk : (remote.map Prod.fst).Nodup)
    (hid : (remote.map (fun r => r.2.head.external_id)).Nodup)
    (r : List Char × Issue Nat GitHubTodoLocation) (hr : r ∈ remote) :
    (r.2.head.external_id ∈ local_.filterMap (fun tl =>
        (lookupIM tl.1 remote).map (fun ri => ri.head.external_id))) ↔
      r.1 ∈ local_.map Prod.fst := by
  constructor
  · intro h
    rcases List.mem_filterMap.mp h with ⟨tl, htl, hmap⟩
    rcases Option.map_eq_some'.mp hmap with ⟨ri, hlook, hidq⟩
    have hmemri : (tl.1, ri) ∈ remote := lookupIM_mem _ _ _ hlook
    have heq : (tl.1, ri) = r := by
      have := List.inj_on_of_nodup_map hid hmemri hr
      exact this hidq
    have : tl.1 = r.1 := congrArg Prod.fst heq
    rw [← this]
    exact List.mem_map_of_mem Prod.fst htl
  · intro h
    rcases List.mem_map.mp h with ⟨tl, htl, hfst⟩
    refine List.mem_filterMap.mpr ⟨tl, htl, ?_⟩
    have hlook : lookupIM tl.1 remote = some r.2 := by
      rw [hfst]
      exact mem_lookupIM _ _ _ hk (by
        have : (r.1, r.2) = r := rfl
        rw [this]; exact hr)
    rw [hlook]
    rfl

theorem delete_spec_aux (remote : IssueMap Nat GitHubTodoLocation)
    (local_ : IssueMap Unit FileTodoLocation)
    (hk : (remote.map Prod.fst).Nodup)
    (hid : (remote.map (fun r => r.2.head.external_id)).Nodup) :
    ∀ rs : IssueMap Nat GitHubTodoLocation, (∀ r ∈ rs, r ∈ remote) →
      rs.filterMap (fun r =>
        if r.2.head.external_id ∈ local_.filterMap (fun tl =>
            (lookupIM tl.1 remote).map (fun ri => ri.head.external_id))
        then none else some r.2.head.external_id) =
      (rs.filter (fun r => decide (r.1 ∉ local_.map Prod.fst))).map
        (fun r => r.2.head.external_id) := by
  intro rs
  induction rs with
  | nil => intro _; rfl
  | cons r rest ih =>
    intro hsub
    have hr : r ∈ remote := hsub r (List.mem_cons_self _ _)
    have hiff := dd_mem_iff remote local_ hk hid r hr
    rw [List.filterMap_cons, List.filter_cons]
    by_cases hmem : r.1 ∈ local_.map Prod.fst
    · rw [if_pos (hiff.mpr hmem)]
      have hd : decide (r.1 ∉ local_.map Prod.fst) = false := by
        simp [hmem]
      rw [hd]
      exact ih (fun x hx => hsub x (List.mem_cons_of_mem _ hx))
    · rw [if_neg (fun hdd => hmem (hiff.mp hdd))]
      have hd : decide (r.1 ∉ local_.map Prod.fst) = true := by
        simp [hmem]
      rw [hd]
      exact congrArg (List.cons r.2.head.external_id)
        (ih (fun x hx => hsub x (List.mem_cons_of_mem _ hx)))

/-- C9: `prepare_patch` partitions the local titles: a local title is a
create key exactly when it is absent from the remote map and an edit
key exactly when it is present, so no title is both; and no id in the
delete list equals the external id of any edit entry. -/
theorem c9_patch_partition (remote : IssueMap Nat GitHubTodoLocation)
    (local_ : IssueMap Unit FileTodoLocation) :
    (∀ t : List Char,
      (t ∈ (prepare_patch remote local_).create.map Prod.fst ↔
        t ∈ local_.map Prod.fst ∧ lookupIM t remote = none) ∧
      (t ∈ (prepare_patch remote local_).edit.map Prod.fst ↔
        t ∈ local_.map Prod.fst ∧ (lookupIM t remote).isSome) ∧
      ¬(t ∈ (prepare_patch remote local_).create.map Prod.fst ∧
        t ∈ (prepare_patch remote local_).edit.map Prod.fst)) ∧
    (∀ x ∈ (prepare_patch remote local_).delete,
      ∀ e ∈ (prepare_patch remote local_).edit, e.2.head.external_id ≠ x) := by
  have hcr : ∀ t : List Char,
      t ∈ (prepare_patch remote local_).create.map Prod.fst ↔
        t ∈ local_.map Prod.fst ∧ lookupIM t remote = none := by
    intro t
    rw [prepare_patch_create]
    constructor
    · intro h
      rcases List.mem_map.mp h with ⟨tl, htl, hfst⟩
      rcases List.mem_filter.mp htl with ⟨hmem, hP⟩
      subst hfst
      exact ⟨List.mem_map_of_mem _ hmem, Option.isNone_iff_eq_none.mp hP⟩
    · rintro ⟨hmem, hnone⟩
      rcases List.mem_map.mp hmem with ⟨tl, htl, hfst⟩
      refine List.mem_map.mpr ⟨tl, List.mem_filter.mpr ⟨htl, ?_⟩, hfst⟩
      rw [hfst, hnone]
      rfl
  have hed : ∀ t : List Char,
      t ∈ (prepare_patch remote local_).edit.map Prod.fst ↔
        t ∈ local_.map Prod.fst ∧ (lookupIM t remote).isSome := by
    intro t
    rw [prepare_patch_edit]
    constructor
    · intro h
      rcases List.mem_map.mp h with ⟨e, he, hfst⟩
      rcases List.mem_filterMap.mp he with ⟨tl, htl, hmap⟩
      rcases Option.map_eq_some'.mp hmap with ⟨ri, hlook, hei⟩
      have h1 : tl.1 = t := by
        rw [← hfst, ← hei]
      refine ⟨?_, ?_⟩
      · rw [← h1]
        exact List.mem_map_of_mem _ htl
      · rw [← h1, hlook]
        rfl
    · rintro ⟨hmem, hsome⟩
      rcases List.mem_map.mp hmem with ⟨tl, htl, hfst⟩
      rcases Option.isSome_iff_exists.mp (by rw [← hfst] at hsome; exact hsome)
        with ⟨ri, hlook⟩
      refine List.mem_map.mpr ⟨(tl.1, { head := ri.head, body := tl.2.body }),
        List.mem_filterMap.mpr ⟨tl, htl, ?_⟩, hfst⟩
      rw [hlook]
      rfl
  refine ⟨fun t => ⟨hcr t, hed t, ?_⟩, ?_⟩
  · rintro ⟨h1, h2⟩
    have hn := ((hcr t).mp h1).2
    have hs := ((hed t).mp h2).2
    rw [hn] at hs
    exact absurd hs (by simp)
  · intro x hx e he
    rw [prepare_patch_delete] at hx
    rw [prepare_patch_edit] at he
    rcases List.mem_filterMap.mp hx with ⟨r, _, hif⟩
    by_cases hdd : r.2.head.external_id ∈ local_.filterMap (fun tl =>
        (lookupIM tl.1 remote).map (fun ri => ri.head.external_id))
    · rw [if_pos hdd] at hif
      exact absurd hif (by simp)
    · rw [if_neg hdd] at hif
      injection hif with hxid
      rcases List.mem_filterMap.mp he with ⟨tl, htl, hmap⟩
      rcases Option.map_eq_some'.mp hmap with ⟨ri, hlook, hei⟩
      have heid : e.2.head.external_id = ri.head.external_id := by
        rw [← hei]
      have hin : ri.head.external_id ∈ local_.filterMap (fun tl =>
          (lookupIM tl.1 remote).map (fun ri => ri.head.external_id)) := by
        refine List.mem_filterMap.mpr ⟨tl, htl, ?_⟩
        rw [hlook]
        rfl
      intro heq
      apply hdd
      rw [hxid]
      rw [← heq, heid]
      exact hin

/-- C9, witness: on the example maps, id 2 is deleted and the theorem
shows it differs from the external id of every edit entry. -/
theorem c9_patch_partition_witness :
    2 ∈ (prepare_patch exRemote exLocal).delete ∧
    "A".toList ∈ (prepare_patch exRemote exLocal).edit.map Prod.fst ∧
    (∀ e ∈ (prepare_patch exRemote exLocal).edit, e.2.head.external_id ≠ 2) :=
  ⟨by decide, by decide,
   fun e he => (c9_patch_partition exRemote exLocal).2 2 (by decide) e he⟩

/-- C1 (amended): when the remote issues' external ids are pairwise
distinct (and remote titles unique, as the hash map guarantees),
`prepare_patch` emits an edit (remote head and id, local body) for each
local issue whose title keys a remote issue, a create for each other
local issue, and a delete for exactly the external ids of the remote
issues matched by no local title; on the concrete example the patch is
create C, edit (id 1, A), delete 2. -/
theorem c1_patch_amended (remote : IssueMap Nat GitHubTodoLocation)
    (local_ : IssueMap Unit FileTodoLocation)
    (hk : (remote.map Prod.fst).Nodup)
    (hid : (remote.map (fun r => r.2.head.external_id)).Nodup) :
    (prepare_patch remote local_).create =
      local_.filter (fun tl => (lookupIM tl.1 remote).isNone) ∧
    (prepare_patch remote local_).edit =
      local_.filterMap (fun tl => (lookupIM tl.1 remote).map
        (fun ri => (tl.1, { head := ri.head, body := tl.2.body }))) ∧
    (prepare_patch remote local_).delete = unmatchedRemoteIds remote local_ ∧
    prepare_patch exRemote exLocal =
      { create := [("C".toList, Issue.new () "C".toList)]
        edit := [("A".toList,
          { head := { title := "A".toList, assignees := [], external_id := 1 }
            body := exBodyA })]
        delete := [2] } := by
  refine ⟨prepare_patch_create remote local_, prepare_patch_edit remote local_,
    ?_, rfl⟩
  rw [prepare_patch_delete]
  exact delete_spec_aux remote local_ hk hid remote (fun r h => h)

/-- C1, witness: the amended theorem applied to the example maps, whose
ids and titles are distinct. -/
theorem c1_patch_amended_witness :
    (exRemote.map Prod.fst).Nodup ∧
    (exRemote.map (fun r => r.2.head.external_id)).Nodup ∧
    (prepare_patch exRemote exLocal).delete = unmatchedRemoteIds exRemote exLocal :=
  ⟨by decide, by decide,
   (c1_patch_amended exRemote exLocal (by decide) (by decide)).2.2.1⟩

/-! ### The I/O failure policy of the extraction pipeline (claim C7) -/

theorem fromFilesGo_error (langMap : String → Option (List TodoParserConfig))
    (fs : List Char → Option (List Char)) :
    ∀ (files : List CandidateFile) (m : IssueMap Unit FileTodoLocation),
      (∃ cf ∈ files, ∃ e, cf.ext = some e ∧ (langMap e).isSome ∧ fs cf.file = none) →
      fromFilesGo langMap fs files m = .error () := by
  intro files
  induction files with
  | nil =>
    intro m h
    rcases h with ⟨cf, hcf, _⟩
    cases hcf
  | cons f rest ih =>
    intro m h
    rcases h with ⟨cf, hcf, e, hext, hlm, hfs⟩
    rcases List.mem_cons.mp hcf with heq | hmem
    · subst heq
      rcases Option.isSome_iff_exists.mp hlm with ⟨langs, hlme⟩
      simp only [fromFilesGo, hext, hlme, hfs]
    · cases hext2 : f.ext with
      | none =>
        simp only [fromFilesGo, hext2]
        exact ih m ⟨cf, hmem, e, hext, hlm, hfs⟩
      | some e0 =>
        cases hlme : langMap e0 with
        | none =>
          simp only [fromFilesGo, hext2, hlme]
          exact ih m ⟨cf, hmem, e, hext, hlm, hfs⟩
        | some langs =>
          cases hread : fs f.file with
          | none => simp only [fromFilesGo, hext2, hlme, hread]
          | some contents =>
            simp only [fromFilesGo, hext2, hlme, hread]
            exact ih _ ⟨cf, hmem, e, hext, hlm, hfs⟩

/-- C7 (amended): when reading any candidate file with a supported
extension fails, `from_files_in_directory` aborts the whole run and
returns the propagated error, rather than continuing with the
remaining candidate files. -/
theorem c7_amended_io_failure_fatal
    (langMap : String → Option (List TodoParserConfig))
    (fs : List Char → Option (List Char)) (files : List CandidateFile)
    (h : ∃ cf ∈ files, ∃ e, cf.ext = some e ∧ (langMap e).isSome ∧
      fs cf.file = none) :
    from_files_in_directory langMap fs files = .error () :=
  fromFilesGo_error langMap fs files [] h

/-- C7, witness: the amended theorem applied to the concrete scenario
in which reading `a.rs` fails. -/
theorem c7_amended_io_failure_fatal_witness :
    from_files_in_directory rsLangMap c7Fs c7Files = .error () :=
  c7_amended_io_failure_fatal rsLangMap c7Fs c7Files
    ⟨{ file := "a.rs".toList, ext := some "rs", lines_to_search := [1] },
     by decide, "rs", rfl, by decide, by decide⟩

/-! ### Step lemmas for symbolic runs of the combinators (claim C8) -/

theorem pcBind_eq {α β : Type} (p : Pc α) (f : α → Pc β) :
    p >>= f = pcBind p f := rfl

theorem pcPure_eq {α : Type} (a : α) : (pure a : Pc α) = pcPure a := rfl

theorem pcBind_ok {α β : Type} {p : Pc α} {f : α → Pc β} {i j : List Char}
    {a : α} {res : PRes β} (h : p i = .ok j a) (h2 : f a j = res) :
    pcBind p f i = res := by
  unfold pcBind
  rw [h]
  exact h2

theorem takeWhile_append_split (p : Char → Bool) (l r : List Char)
    (hl : ∀ c ∈ l, p c = true) (hr : ∀ c, r.head? = some c → p c = false) :
    (l ++ r).takeWhile p = l ∧ (l ++ r).dropWhile p = r := by
  induction l with
  | nil =>
    simp only [List.nil_append]
    cases r with
    | nil => simp
    | cons c rs =>
      have hc := hr c rfl
      simp [List.takeWhile_cons, List.dropWhile_cons, hc]
  | cons c cs ih =>
    have hc := hl c (List.mem_cons_self _ _)
    have ih2 := ih (fun x hx => hl x (List.mem_cons_of_mem _ hx))
    simp [List.takeWhile_cons, List.dropWhile_cons, hc, ih2.1, ih2.2]

theorem isPrefixOf_self_append (t r : List Char) :
    t.isPrefixOf (t ++ r) = true := by
  induction t with
  | nil => cases r <;> rfl
  | cons c cs ih => simp [List.isPrefixOf, ih]

theorem pTag_self_append (t r : List Char) : pTag t (t ++ r) = .ok r t := by
  unfold pTag
  rw [if_pos (isPrefixOf_self_append t r), List.drop_left]

theorem pChar_cons (c : Char) (r : List Char) : pChar c (c :: r) = .ok r c := by
  show (if c = c then PRes.ok r c else PRes.err) = PRes.ok r c
  rw [if_pos rfl]

theorem pTakeTill_split (f : Char → Bool) (l r : List Char)
    (hl : ∀ c ∈ l, f c = false) (hr : ∀ c, r.head? = some c → f c = true) :
    pTakeTill f (l ++ r) = .ok r l := by
  unfold pTakeTill
  have h := takeWhile_append_split (fun c => !(f c)) l r
    (by intro c hc; simp [hl c hc]) (by intro c hc; simp [hr c hc])
  rw [h.1, h.2]

theorem pTakeWhile1_split (f : Char → Bool) (l r : List Char) (hne : l ≠ [])
    (hl : ∀ c ∈ l, f c = true) (hr : ∀ c, r.head? = some c → f c = false) :
    pTakeWhile1 f (l ++ r) = .ok r l := by
  unfold pTakeWhile1
  have h := takeWhile_append_split f l r hl hr
  rw [h.1, h.2]
  cases l with
  | nil => exact absurd rfl hne
  | cons c cs => rfl

theorem digitChar_spec (d : Nat) (h : d < 10) :
    (digitChar d).toNat = 48 + d ∧ (digitChar d).isDigit = true := by
  interval_cases d <;> exact ⟨rfl, rfl⟩

theorem natOfDigits_append (ds : List Char) (c : Char) :
    natOfDigits (ds ++ [c]) = natOfDigits ds * 10 + (c.toNat - 48) := by
  unfold natOfDigits
  rw [List.foldl_append]
  rfl

theorem natDigitsF_spec : ∀ f n, n < f →
    natDigitsF f n ≠ [] ∧ (∀ c ∈ natDigitsF f n, c.isDigit = true) ∧
    natOfDigits (natDigitsF f n) = n := by
  intro f
  induction f with
  | zero => intro n h; exact absurd h (Nat.not_lt_zero n)
  | succ f ih =>
    intro n h
    rw [natDigitsF]
    by_cases h10 : n < 10
    · rw [if_pos h10]
      refine ⟨by simp, ?_, ?_⟩
      · intro c hc
        simp only [List.mem_singleton] at hc
        subst hc
        exact (digitChar_spec n h10).2
      · have hd := (digitChar_spec n h10).1
        unfold natOfDigits
        simp only [List.foldl_cons, List.foldl_nil, hd]
        omega
    · rw [if_neg h10]
      have hdiv : n / 10 < n := Nat.div_lt_self (by omega) (by omega)
      have hih := ih (n / 10) (by omega)
      have hmod : n % 10 < 10 := Nat.mod_lt _ (by omega)
      refine ⟨by simp, ?_, ?_⟩
      · intro c hc
        rcases List.mem_append.mp hc with hc1 | hc2
        · exact hih.2.1 c hc1
        · simp only [List.mem_singleton] at hc2
          subst hc2
          exact (digitChar_spec _ hmod).2
      · rw [natOfDigits_append, hih.2.2, (digitChar_spec _ hmod).1]
        omega

theorem natDigits_spec (n : Nat) :
    natDigits n ≠ [] ∧ (∀ c ∈ natDigits n, c.isDigit = true) ∧
    natOfDigits (natDigits n) = n :=
  natDigitsF_spec (n + 1) n (Nat.lt_succ_self n)

theorem parseUsize_natDigits (n : Nat) (h : n < usizeTop) :
    parseUsize (natDigits n) = some n := by
  unfold parseUsize
  rw [(natDigits_spec n).2.2, if_pos h]

theorem pDigit1_digits (n : Nat) (r : List Char)
    (hr : ∀ c, r.head? = some c → c.isDigit = false) :
    pDigit1 (natDigits n ++ r) = .ok r (natDigits n) :=
  pTakeWhile1_split _ _ _ (natDigits_spec n).1 (natDigits_spec n).2.1 hr

theorem convertLine_digits (e : Nat) (he : e < usizeTop) :
    convertLine ("-L".toList ++ natDigits e) = .ok [] e := by
  simp only [convertLine, pcBind_eq, pcPure_eq]
  refine pcBind_ok (pTag_self_append _ _) ?_
  rw [← List.append_nil (natDigits e)]
  refine pcBind_ok (pDigit1_digits e [] (fun c hc => by cases hc)) ?_
  rw [parseUsize_natDigits e he]
  rfl

theorem span_link_roundtrip (start : Nat) (me : Option Nat)
    (hs : start < usizeTop) (hm : ∀ e, me = some e → e < usizeTop) :
    span_from_github_link ("#L".toList ++ (natDigits start ++ endPartOf me)) =
      .ok [] (start, me) := by
  simp only [span_from_github_link, pcBind_eq, pcPure_eq]
  refine pcBind_ok (pTag_self_append _ _) ?_
  have hr : ∀ c, (endPartOf me).head? = some c → c.isDigit = false := by
    intro c hc
    cases me with
    | none => cases hc
    | some e =>
      simp only [endPartOf] at hc
      have : c = '-' := by
        injection hc with h1
        exact h1.symm
      subst this
      rfl
  refine pcBind_ok (pDigit1_digits start (endPartOf me) hr) ?_
  rw [parseUsize_natDigits start hs]
  cases me with
  | none =>
    refine pcBind_ok (?_ : pOpt convertLine (endPartOf none) = .ok [] none) rfl
    unfold pOpt
    have hcl : convertLine (endPartOf none) = .err := rfl
    rw [hcl]
    rfl
  | some e =>
    refine pcBind_ok
      (?_ : pOpt convertLine (endPartOf (some e)) = .ok [] (some e)) rfl
    unfold pOpt
    have hcl : convertLine (endPartOf (some e)) = .ok [] e := by
      show convertLine ("-L".toList ++ natDigits e) = .ok [] e
      exact convertLine_digits e (hm e rfl)
    rw [hcl]

theorem repo_step (owner repo r : List Char) (ho : '/' ∉ owner)
    (hr : '/' ∉ repo) :
    repo_from_github_link (owner ++ '/' :: (repo ++ '/' :: r)) =
      .ok ('/' :: r) (owner, repo) := by
  simp only [repo_from_github_link, pcBind_eq, pcPure_eq]
  refine pcBind_ok (pTakeTill_split _ owner ('/' :: (repo ++ '/' :: r))
    ?_ ?_) ?_
  · intro c hc
    simp only [decide_eq_false_iff_not]
    exact fun h => ho (h ▸ hc)
  · intro c hc
    injection hc with h1
    subst h1
    rfl
  refine pcBind_ok (pChar_cons '/' _) ?_
  refine pcBind_ok (pTakeTill_split _ repo ('/' :: r) ?_ ?_) rfl
  · intro c hc
    simp only [decide_eq_false_iff_not]
    exact fun h => hr (h ▸ hc)
  · intro c hc
    injection hc with h1
    subst h1
    rfl

theorem linkOf_shape (owner repo checkout rel : List Char) (start : Nat)
    (me : Option Nat) :
    linkOf owner repo checkout rel start me =
      "https://github.com/".toList ++ (owner ++ '/' :: (repo ++ '/' ::
        ("blob".toList ++ '/' :: (checkout ++ '/' ::
          (rel ++ '#' :: 'L' :: (natDigits start ++ endPartOf me)))))) := by
  have hlit : "https://github.com/".toList =
      "https://github.com".toList ++ ['/'] := rfl
  have hl2 : "#L".toList = ['#', 'L'] := rfl
  simp [linkOf, joinSlash, hlit, hl2, List.append_assoc]

/-- C8 (amended): for a file under the working directory whose relative
path contains no `#`, and owner, repo and checkout components
containing no `/`, with line numbers in usize range, `to_github_link`
renders `https://github.com/<owner>/<repo>/blob/<checkout>/<rel>#L<start>`
with `-L<end>` appended exactly when an end line is present, and
`todo_location_from_github_link` reads the same owner, repo, checkout,
relative file and span back out of that link. -/
theorem c8_amended_roundtrip (cwd rel owner repo checkout : List Char)
    (start : Nat) (me : Option Nat)
    (ho : '/' ∉ owner) (hrp : '/' ∉ repo) (hck : '/' ∉ checkout)
    (hrel : '#' ∉ rel) (hs : start < usizeTop)
    (hm : ∀ e, me = some e → e < usizeTop) :
    to_github_link { file := cwd ++ '/' :: rel, src_span := (start, me) }
        cwd owner repo checkout =
      .ok (linkOf owner repo checkout rel start me) ∧
    todo_location_from_github_link (linkOf owner repo checkout rel start me) =
      .ok [] { repo := (owner, repo), checkout := checkout, file := rel,
               src_span := (start, me) } := by
  constructor
  · unfold to_github_link
    have hsplit : cwd ++ '/' :: rel = (cwd ++ ['/']) ++ rel := by simp
    have hstrip : stripPrefixPath cwd (cwd ++ '/' :: rel) = some rel := by
      unfold stripPrefixPath
      rw [hsplit, if_pos (isPrefixOf_self_append _ _)]
      have hlen : (cwd ++ ['/']).length = cwd.length + 1 := by simp
      rw [← hlen, List.drop_left]
    rw [hstrip]
    cases me <;> rfl
  · rw [linkOf_shape]
    simp only [todo_location_from_github_link, pcBind_eq, pcPure_eq]
    refine pcBind_ok (pTag_self_append "https://github.com/".toList _) ?_
    refine pcBind_ok (repo_step owner repo _ ho hrp) ?_
    refine pcBind_ok (pChar_cons '/' _) ?_
    refine pcBind_ok (pTag_self_append "blob".toList _) ?_
    refine pcBind_ok (pChar_cons '/' _) ?_
    refine pcBind_ok (pTakeTill_split _ checkout ('/' ::
      (rel ++ '#' :: 'L' :: (natDigits start ++ endPartOf me))) ?_ ?_) ?_
    · intro c hc
      simp only [decide_eq_false_iff_not]
      exact fun h => hck (h ▸ hc)
    · intro c hc
      injection hc with h1
      subst h1
      rfl
    refine pcBind_ok (pChar_cons '/' _) ?_
    refine pcBind_ok (pTakeTill_split _ rel ('#' :: 'L' ::
      (natDigits start ++ endPartOf me)) ?_ ?_) ?_
    · intro c hc
      simp only [decide_eq_false_iff_not]
      exact fun h => hrel (h ▸ hc)
    · intro c hc
      injection hc with h1
      subst h1
      rfl
    refine pcBind_ok (span_link_roundtrip start me hs hm) rfl

/-- C8, witness: the amended theorem at the spec's example, file
`/repo/src/x.rs` under `/repo` with span (10, 12) and context
(o, r, abc); the rendered link ends in `#L10-L12` and reads back. -/
theorem c8_amended_roundtrip_witness :
    to_github_link { file := "/repo/src/x.rs".toList, src_span := (10, some 12) }
        "/repo".toList "o".toList "r".toList "abc".toList =
      .ok "https://github.com/o/r/blob/abc/src/x.rs#L10-L12".toList ∧
    todo_location_from_github_link
        "https://github.com/o/r/blob/abc/src/x.rs#L10-L12".toList =
      .ok [] { repo := ("o".toList, "r".toList), checkout := "abc".toList,
               file := "src/x.rs".toList, src_span := (10, some 12) } := by
  have h := c8_amended_roundtrip "/repo".toList "src/x.rs".toList "o".toList
    "r".toList "abc".toList 10 (some 12) (by decide) (by decide) (by decide)
    (by decide) (by decide) (fun e he => by injection he with h1; subst h1; decide)
  have hfile : "/repo".toList ++ '/' :: "src/x.rs".toList =
      "/repo/src/x.rs".toList := by decide
  have hlink : linkOf "o".toList "r".toList "abc".toList "src/x.rs".toList
      10 (some 12) = "https://github.com/o/r/blob/abc/src/x.rs#L10-L12".toList := by
    decide
  rw [hfile, hlink] at h
  exact h

/-! ### The sentence boundary characterization (claim C4) -/

theorem acceptB_zero (s : List Char) : acceptB s 0 = false := rfl

theorem acceptB_succ (s : List Char) (m : Nat) :
    acceptB s (m + 1) =
      ((match s.get? m with
        | some c => isTerm c
        | none => false) &&
       (match s.get? (m + 1) with
        | none => true
        | some c => decide (c = ' '))) := rfl

theorem acceptB_le_length (s : List Char) (k : Nat)
    (h : acceptB s k = true) : k ≤ s.length := by
  cases k with
  | zero => exact Nat.zero_le _
  | succ m =>
    rw [acceptB_succ] at h
    by_cases hl : s.length ≤ m
    · rw [List.get?_eq_none.mpr hl] at h
      simp at h
    · omega

theorem mem_of_take_while {p : Char → Bool} {l : List Char} {c : Char}
    (h : c ∈ l.takeWhile p) : p c = true := by
  induction l with
  | nil => cases h
  | cons x xs ih =>
    rw [List.takeWhile_cons] at h
    by_cases hx : p x = true
    · rw [if_pos hx] at h
      rcases List.mem_cons.mp h with he | hm
      · subst he; exact hx
      · exact ih hm
    · rw [if_neg hx] at h
      cases h

theorem dropWhile_head_false (p : Char → Bool) (l : List Char) (c : Char)
    (cs : List Char) (h : l.dropWhile p = c :: cs) : p c = false := by
  induction l with
  | nil => cases h
  | cons x xs ih =>
    rw [List.dropWhile_cons] at h
    by_cases hx : p x = true
    · rw [if_pos hx] at h
      exact ih h
    · rw [if_neg hx] at h
      injection h with h1 _
      subst h1
      cases hpc : p x
      · rfl
      · exact absurd hpc hx

theorem isTerm_not_space {c : Char} (h : isTerm c = true) :
    decide (c = ' ') = false := by
  by_cases hc : c = ' '
  · subst hc
    cases h
  · simp [hc]

theorem acceptB_split (a b r2 : List Char)
    (ha : ∀ c ∈ a, isTerm c = false) (hb : ∀ c ∈ b, isTerm c = true) :
    (∀ k, k < a.length + b.length → acceptB (a ++ (b ++ r2)) k = false) ∧
    (b ≠ [] → acceptB (a ++ (b ++ r2)) (a.length + b.length) =
      (match r2.head? with
       | none => true
       | some c => decide (c = ' '))) ∧
    (∀ k, acceptB (a ++ (b ++ r2)) (a.length + b.length + k + 1) =
      acceptB r2 (k + 1)) := by
  have hget : ∀ m, m < a.length → (a ++ (b ++ r2)).get? m = a.get? m := by
    intro m hm
    exact List.get?_append hm
  have hgetb : ∀ m, a.length ≤ m → m < a.length + b.length →
      (a ++ (b ++ r2)).get? m = b.get? (m - a.length) := by
    intro m hm1 hm2
    rw [List.get?_append_right hm1, List.get?_append (by omega)]
  have hgetr : ∀ m, a.length + b.length ≤ m →
      (a ++ (b ++ r2)).get? m = r2.get? (m - a.length - b.length) := by
    intro m hm
    rw [List.get?_append_right (by omega), List.get?_append_right (by omega)]
  refine ⟨?_, ?_, ?_⟩
  · intro k hk
    cases k with
    | zero => rfl
    | succ m =>
      rw [acceptB_succ]
      by_cases hma : m < a.length
      · rw [hget m hma]
        cases hg : a.get? m with
        | none => rfl
        | some c => simp [ha c (List.get?_mem hg)]
      · have hmb : a.length ≤ m ∧ m < a.length + b.length := by omega
        have h2 : m + 1 < a.length + b.length := by omega
        rw [hgetb (m + 1) (by omega) h2]
        cases hg : b.get? (m + 1 - a.length) with
        | none =>
          have := List.get?_eq_none.mp hg
          omega
        | some c => simp [isTerm_not_space (hb c (List.get?_mem hg))]
  · intro hbne
    have hlen : 0 < b.length := List.length_pos.mpr hbne
    have h1 : a.length + b.length = (a.length + b.length - 1) + 1 := by omega
    rw [h1, acceptB_succ]
    rw [hgetb (a.length + b.length - 1) (by omega) (by omega)]
    cases hg : b.get? (a.length + b.length - 1 - a.length) with
    | none =>
      have := List.get?_eq_none.mp hg
      omega
    | some c =>
      have hc := hb c (List.get?_mem hg)
      rw [← h1, hgetr (a.length + b.length) (by omega)]
      have hz : a.length + b.length - a.length - b.length = 0 := by omega
      rw [hz]
      cases r2 with
      | nil => simp [hc]
      | cons x xs => simp [hc]
  · intro k
    rw [acceptB_succ, acceptB_succ]
    rw [hgetr (a.length + b.length + k) (by omega),
        hgetr (a.length + b.length + k + 1) (by omega)]
    have e1 : a.length + b.length + k - a.length - b.length = k := by omega
    have e2 : a.length + b.length + k + 1 - a.length - b.length = k + 1 := by
      omega
    rw [e1, e2]

theorem satGoF_spec : ∀ (fuel : Nat) (ii : List Char) (n0 : Nat),
    ii.length < fuel →
    ((∀ k, acceptB ii k = false) → satGoF fuel ii n0 = n0 + ii.length) ∧
    (∀ k, acceptB ii k = true → (∀ m, m < k → acceptB ii m = false) →
      satGoF fuel ii n0 = n0 + k) := by
  intro fuel
  induction fuel with
  | zero =>
    intro ii n0 h
    exact absurd h (Nat.not_lt_zero _)
  | succ f ih =>
    intro ii n0 h
    have ha : ∀ c ∈ ii.takeWhile (fun c => !(isTerm c)), isTerm c = false := by
      intro c hc
      have h1 := mem_of_take_while hc
      cases h2 : isTerm c
      · rfl
      · rw [h2] at h1
        cases h1
    have hb : ∀ c ∈ (ii.dropWhile (fun c => !(isTerm c))).takeWhile isTerm,
        isTerm c = true := fun c hc => mem_of_take_while hc
    have hii : ii.takeWhile (fun c => !(isTerm c)) ++
        ((ii.dropWhile (fun c => !(isTerm c))).takeWhile isTerm ++
         (ii.dropWhile (fun c => !(isTerm c))).dropWhile isTerm) = ii := by
      rw [List.takeWhile_append_dropWhile, List.takeWhile_append_dropWhile]
    have split := acceptB_split (ii.takeWhile (fun c => !(isTerm c)))
      ((ii.dropWhile (fun c => !(isTerm c))).takeWhile isTerm)
      ((ii.dropWhile (fun c => !(isTerm c))).dropWhile isTerm) ha hb
    rw [hii] at split
    have hlen := congrArg List.length hii
    simp only [List.length_append] at hlen
    cases hr2 : (ii.dropWhile (fun c => !(isTerm c))).dropWhile isTerm with
    | nil =>
      have hval : satGoF (f + 1) ii n0 =
          n0 + (ii.takeWhile (fun c => !(isTerm c))).length +
          ((ii.dropWhile (fun c => !(isTerm c))).takeWhile isTerm).length := by
        simp only [satGoF]
        rw [hr2]
      rw [hr2] at hlen
      simp only [List.length_nil] at hlen
      constructor
      · intro _
        rw [hval]
        omega
      · intro k hk hmin
        have hkle := acceptB_le_length ii k hk
        have hknl : ¬(k < (ii.takeWhile (fun c => !(isTerm c))).length +
            ((ii.dropWhile (fun c => !(isTerm c))).takeWhile isTerm).length) := by
          intro hlt
          rw [split.1 k hlt] at hk
          cases hk
        rw [hval]
        omega
    | cons c cs =>
      have hr1ne : ∃ x xs, ii.dropWhile (fun c => !(isTerm c)) = x :: xs := by
        cases hr1 : ii.dropWhile (fun c => !(isTerm c)) with
        | nil =>
          rw [hr1] at hr2
          cases hr2
        | cons x xs => exact ⟨x, xs, rfl⟩
      rcases hr1ne with ⟨x, xs, hr1⟩
      have hx : isTerm x = true := by
        have hPx := dropWhile_head_false (fun c => !(isTerm c)) ii x xs hr1
        simpa using hPx
      have hbne : (ii.dropWhile (fun c => !(isTerm c))).takeWhile isTerm ≠ [] := by
        rw [hr1, List.takeWhile_cons, if_pos hx]
        exact List.cons_ne_nil _ _
      have hblen : 0 < ((ii.dropWhile (fun c => !(isTerm c))).takeWhile isTerm).length :=
        List.length_pos.mpr hbne
      rw [hr2] at hlen
      simp only [List.length_cons] at hlen
      have hacc2 : acceptB ii ((ii.takeWhile (fun c => !(isTerm c))).length +
          ((ii.dropWhile (fun c => !(isTerm c))).takeWhile isTerm).length) =
          decide (c = ' ') := by
        rw [split.2.1 hbne, hr2]
        rfl
      have hshift : ∀ k, acceptB ii ((ii.takeWhile (fun c => !(isTerm c))).length +
          ((ii.dropWhile (fun c => !(isTerm c))).takeWhile isTerm).length + k + 1) =
          acceptB (c :: cs) (k + 1) := by
        intro k
        rw [split.2.2 k, hr2]
      by_cases hc : c = ' '
      · have hval : satGoF (f + 1) ii n0 =
            n0 + (ii.takeWhile (fun c => !(isTerm c))).length +
            ((ii.dropWhile (fun c => !(isTerm c))).takeWhile isTerm).length := by
          simp only [satGoF, hr2]
          rw [if_pos hc]
        have haccT : acceptB ii ((ii.takeWhile (fun c => !(isTerm c))).length +
            ((ii.dropWhile (fun c => !(isTerm c))).takeWhile isTerm).length) = true := by
          rw [hacc2, hc]
          exact decide_eq_true rfl
        constructor
        · intro hall
          rw [hall _] at haccT
          cases haccT
        · intro k hk hmin
          have hknl : ¬(k < (ii.takeWhile (fun c => !(isTerm c))).length +
              ((ii.dropWhile (fun c => !(isTerm c))).takeWhile isTerm).length) := by
            intro hlt
            rw [split.1 k hlt] at hk
            cases hk
          have hkng : ¬((ii.takeWhile (fun c => !(isTerm c))).length +
              ((ii.dropWhile (fun c => !(isTerm c))).takeWhile isTerm).length < k) := by
            intro hgt
            rw [hmin _ hgt] at haccT
            cases haccT
          rw [hval]
          omega
      · have hval : satGoF (f + 1) ii n0 = satGoF f (c :: cs)
            (n0 + (ii.takeWhile (fun c => !(isTerm c))).length +
             ((ii.dropWhile (fun c => !(isTerm c))).takeWhile isTerm).length) := by
          simp only [satGoF, hr2]
          rw [if_neg hc]
        have haccF : acceptB ii ((ii.takeWhile (fun c => !(isTerm c))).length +
            ((ii.dropWhile (fun c => !(isTerm c))).takeWhile isTerm).length) = false := by
          rw [hacc2]
          simp [hc]
        have hfl : (c :: cs).length < f := by
          simp only [List.length_cons]
          omega
        constructor
        · intro hall
          have hall2 : ∀ k, acceptB (c :: cs) k = false := by
            intro k
            cases k with
            | zero => rfl
            | succ m =>
              rw [← hshift m]
              exact hall _
          rw [hval, (ih (c :: cs) _ hfl).1 hall2]
          simp only [List.length_cons]
          omega
        · intro k hk hmin
          have hknl : ¬(k < (ii.takeWhile (fun c => !(isTerm c))).length +
              ((ii.dropWhile (fun c => !(isTerm c))).takeWhile isTerm).length) := by
            intro hlt
            rw [split.1 k hlt] at hk
            cases hk
          have hkne : k ≠ (ii.takeWhile (fun c => !(isTerm c))).length +
              ((ii.dropWhile (fun c => !(isTerm c))).takeWhile isTerm).length := by
            intro he
            rw [he, haccF] at hk
            cases hk
          obtain ⟨k2, hk2eq⟩ : ∃ k2, k =
              (ii.takeWhile (fun c => !(isTerm c))).length +
              ((ii.dropWhile (fun c => !(isTerm c))).takeWhile isTerm).length +
              k2 + 1 :=
            ⟨k - ((ii.takeWhile (fun c => !(isTerm c))).length +
              ((ii.dropWhile (fun c => !(isTerm c))).takeWhile isTerm).length) - 1,
             by omega⟩
          subst hk2eq
          have hk2 : acceptB (c :: cs) (k2 + 1) = true := by
            rw [← hshift k2]
            exact hk
          have hmin2 : ∀ m, m < k2 + 1 → acceptB (c :: cs) m = false := by
            intro m hm
            cases m with
            | zero => rfl
            | succ m2 =>
              rw [← hshift m2]
              exact hmin _ (by omega)
          rw [hval, (ih (c :: cs) _ hfl).2 (k2 + 1) hk2 hmin2]
          omega

/-- C4: `sentence_and_terminator` splits exactly at the first run of
terminator characters immediately followed by a space or by the end of
the input (the accepted positions of `acceptB` are exactly the ends of
such runs), never at a terminator run followed by any other character;
when no such run exists the whole input is the sentence.  In
particular, on the two example inputs it returns sentence `A.` with
remainder `B.`, and sentence `fmap.fmap is weird.` with remainder
`ok.` without splitting inside `fmap.fmap`. -/
theorem c4_sentence_boundary :
    (∀ (s : List Char) (k : Nat), acceptB s k = true →
      (∀ m, m < k → acceptB s m = false) →
      sentence_and_terminator s = (rustTrimStart (s.drop k), s.take k)) ∧
    (∀ s : List Char, (∀ k, acceptB s k = false) →
      sentence_and_terminator s = ([], s)) ∧
    sentence_and_terminator "A. B.".toList = ("B.".toList, "A.".toList) ∧
    sentence_and_terminator "fmap.fmap is weird. ok.".toList =
      ("ok.".toList, "fmap.fmap is weird.".toList) := by
  refine ⟨?_, ?_, by decide, by decide⟩
  · intro s k hk hmin
    unfold sentence_and_terminator
    rw [(satGoF_spec (s.length + 1) s 0 (Nat.lt_succ_self _)).2 k hk hmin,
      Nat.zero_add]
  · intro s hall
    unfold sentence_and_terminator
    rw [(satGoF_spec (s.length + 1) s 0 (Nat.lt_succ_self _)).1 hall,
      Nat.zero_add]
    show (rustTrimStart (s.drop s.length), s.take s.length) = ([], s)
    rw [List.drop_length, List.take_length]
    rfl

/-- C4, witness: position 2 of `A. B.` is the first accepted boundary,
and the theorem computes the split there. -/
theorem c4_sentence_boundary_witness :
    (acceptB "A. B.".toList 2 = true ∧
     (∀ m, m < 2 → acceptB "A. B.".toList m = false)) ∧
    sentence_and_terminator "A. B.".toList =
      (rustTrimStart ("A. B.".toList.drop 2), "A. B.".toList.take 2) :=
  ⟨⟨by decide, by decide⟩,
   c4_sentence_boundary.1 "A. B.".toList 2 (by decide) (by decide)⟩

/-! ### The macro-call body (claim C5) -/

theorem mem_of_rustTrimStart {c : Char} {s : List Char}
    (h : c ∈ rustTrimStart s) : c ∈ s :=
  (List.dropWhile_suffix _).sublist.subset h

theorem mem_of_rustTrimEnd {c : Char} {s : List Char}
    (h : c ∈ rustTrimEnd s) : c ∈ s := by
  unfold rustTrimEnd at h
  rw [List.mem_reverse] at h
  have h2 := (List.dropWhile_suffix _).sublist.subset h
  rwa [List.mem_reverse] at h2

theorem mem_of_rustTrim {c : Char} {s : List Char}
    (h : c ∈ rustTrim s) : c ∈ s :=
  mem_of_rustTrimStart (mem_of_rustTrimEnd h)

theorem mem_of_trimMatchesChar {c ch : Char} {s : List Char}
    (h : c ∈ trimMatchesChar ch s) : c ∈ s := by
  unfold trimMatchesChar at h
  rw [List.mem_reverse] at h
  have h2 := (List.dropWhile_suffix _).sublist.subset h
  rw [List.mem_reverse] at h2
  exact (List.dropWhile_suffix _).sublist.subset h2

theorem takeWhile_eq_of_agree (p q : Char → Bool) (l : List Char)
    (h : ∀ c ∈ l, p c = q c) : l.takeWhile p = l.takeWhile q := by
  induction l with
  | nil => rfl
  | cons c cs ih =>
    rw [List.takeWhile_cons, List.takeWhile_cons, h c (List.mem_cons_self c cs)]
    by_cases hq : q c = true
    · rw [if_pos hq, if_pos hq, ih (fun x hx => h x (List.mem_cons_of_mem _ hx))]
    · rw [if_neg hq, if_neg hq]

theorem takeWhile_no_cr (l : List Char) (h : '\r' ∉ l) :
    l.takeWhile (fun c => !(c = '\r' || c = '\n')) =
      l.takeWhile (fun c => !(c = '\n')) := by
  refine takeWhile_eq_of_agree _ _ l ?_
  intro c hc
  have hne : ¬(c = '\r') := fun he => h (he ▸ hc)
  simp [hne]

theorem rust_todo_content_step (content rest : List Char)
    (hne : content ≠ []) (hnp : ')' ∉ content) :
    rust_todo_content ('(' :: (content ++ ')' :: rest)) = .ok rest
      { title := trimFragBs
          (titleAndRestT [] (trimMatchesChar '"' (rustTrim content))).2.1
        assignee := none
        desc_lines :=
          (if (titleAndRestT [] (trimMatchesChar '"' (rustTrim content))).2.2.isEmpty
           then []
           else [trimFragBs
             (titleAndRestT [] (trimMatchesChar '"' (rustTrim content))).2.2]) ++
          rtcLoop
            ((titleAndRestT [] (trimMatchesChar '"' (rustTrim content))).1.length + 1)
            (titleAndRestT [] (trimMatchesChar '"' (rustTrim content))).1 } := by
  simp only [rust_todo_content, pcBind_eq, pcPure_eq]
  refine pcBind_ok (pChar_cons '(' _) ?_
  refine pcBind_ok
    (pTakeWhile1_split (fun c => !(c = ')')) content (')' :: rest) hne
      (fun c hc => by
        simp only [Bool.not_eq_true', decide_eq_false_iff_not]
        exact fun he => hnp (he ▸ hc))
      (fun c hc => by
        injection hc with h1
        subst h1
        simp)) ?_
  refine pcBind_ok (pChar_cons ')' _) ?_
  rfl

/-- C5 (amended): when the todo tag is the macro-call marker, the body
eater consumes exactly the text between the first opening parenthesis
and the first following closing parenthesis, records no assignee, and
takes as title the first sentence of the first line of the content
after trimming surrounding whitespace and every layer of surrounding
quote characters, with trailing line-continuation backslashes and
whitespace trimmed; in particular `todo!("A special todo");` produces
title `A special todo` with no assignee and no description, and the
multi-line continuation form collapses its backslashes onto separate
description lines. -/
theorem c5_macro_call_amended :
    (∀ content rest : List Char, content ≠ [] → ')' ∉ content →
      '\r' ∉ content →
      ∃ td : ParsedTodo,
        rust_todo_content ('(' :: (content ++ ')' :: rest)) = .ok rest td ∧
        td.assignee = none ∧
        td.title = trimFragBs ((sentence_and_terminator
          ((trimMatchesChar '"' (rustTrim content)).takeWhile
            (fun c => !(c = '\n')))).2)) ∧
    parse_todo (fromCommentStyles rust_style) "todo!(\"A special todo\");".toList =
      .ok ";".toList
        { title := "A special todo".toList, assignee := none, desc_lines := [] } ∧
    parse_todo (fromCommentStyles rust_style)
        "todo!(\n    \"A special Rust-only todo on \\\n    more than one line, as a multi-line string \\\n    that is pretty long.\"\n);".toList =
      .ok ";".toList
        { title := "A special Rust-only todo on".toList
          assignee := none
          desc_lines := ["more than one line, as a multi-line string".toList,
            "that is pretty long.".toList] } := by
  refine ⟨?_, rfl, rfl⟩
  intro content rest hne hnp hnr
  refine ⟨_, rust_todo_content_step content rest hne hnp, rfl, ?_⟩
  have hcr : '\r' ∉ trimMatchesChar '"' (rustTrim content) := by
    intro hmem
    exact hnr (mem_of_rustTrim (mem_of_trimMatchesChar hmem))
  have hln : (titleAndRestT [] (trimMatchesChar '"' (rustTrim content))).2.1 =
      (sentence_and_terminator
        ((trimMatchesChar '"' (rustTrim content)).takeWhile
          (fun c => !(c = '\r' || c = '\n')))).2 := rfl
  rw [hln, takeWhile_no_cr _ hcr]

/-- C5, witness: the general part of the amended theorem instantiated at
the concrete content of the macro call `todo!("A special todo");`. -/
theorem c5_macro_call_amended_witness :
    ("\"A special todo\"".toList ≠ [] ∧ ')' ∉ "\"A special todo\"".toList ∧
      '\r' ∉ "\"A special todo\"".toList) ∧
    ∃ td : ParsedTodo,
      rust_todo_content
          ('(' :: ("\"A special todo\"".toList ++ ')' :: ";".toList)) =
        .ok ";".toList td ∧
      td.assignee = none ∧
      td.title = trimFragBs ((sentence_and_terminator
        ((trimMatchesChar '"' (rustTrim "\"A special todo\"".toList)).takeWhile
          (fun c => !(c = '\n')))).2) :=
  ⟨⟨by decide, by decide, by decide⟩,
   c5_macro_call_amended.1 "\"A special todo\"".toList ";".toList
     (by decide) (by decide) (by decide)⟩

end TodoFinder
